import Mathlib

set_option linter.unusedVariables false

/-!
Shallow embedding of the WotC Strixhaven story scraper
(scripts/万智牌官方小故事爬虫/wotc_story_scraper.py) and proofs about its
documented behaviour.  Pure Python functions become Lean functions; the
mutable pieces of state (asset cache, file system, HTTP client) are passed
explicitly; external collaborators (httpx transport, lxml parsing, json
parsing, trafilatura, markdownify, urllib helpers) are parameters of the
model.
-/

namespace Scraper

/-! ### Generic string helpers

Substring containment, used to state facts about warning strings. -/

/-- Bool test: does the pattern occur at the head of the haystack? -/
def headMatches : List Char → List Char → Bool
  | [], _ => true
  | _ :: _, [] => false
  | a :: as, b :: bs => a == b && headMatches as bs

/-- Bool test: does the pattern occur anywhere inside the haystack? -/
def containsChars (hay sub : List Char) : Bool :=
  match hay with
  | [] => headMatches sub []
  | c :: t => headMatches sub (c :: t) || containsChars t sub

/-- Substring containment on strings. -/
def strContains (s sub : String) : Bool :=
  containsChars s.data sub.data

theorem headMatches_append (m s : List Char) : headMatches m (m ++ s) = true := by
  induction m with
  | nil => rfl
  | cons c cs ih => simp [headMatches, ih]

theorem containsChars_of_head (hay sub : List Char)
    (h : headMatches sub hay = true) : containsChars hay sub = true := by
  cases hay with
  | nil => simpa [containsChars] using h
  | cons c t => simp [containsChars, h]

theorem containsChars_of_tail (c : Char) (t sub : List Char)
    (h : containsChars t sub = true) : containsChars (c :: t) sub = true := by
  simp [containsChars, h]

theorem containsChars_append_middle (p m s : List Char) :
    containsChars (p ++ m ++ s) m = true := by
  induction p with
  | nil =>
    simp only [List.nil_append]
    exact containsChars_of_head _ _ (headMatches_append m s)
  | cons c cs ih =>
    simp only [List.cons_append] at ih ⊢
    exact containsChars_of_tail c _ m ih

/-- A string built as prefixStr ++ mid ++ suffixStr contains mid. -/
theorem strContains_append_middle (a mid b : String) :
    strContains (a ++ mid ++ b) mid = true := by
  unfold strContains
  have h : (a ++ mid ++ b).data = a.data ++ mid.data ++ b.data := by
    simp [String.data_append]
  rw [h]
  exact containsChars_append_middle a.data mid.data b.data

/-! ### Python-style truthiness helpers

Python's x or y evaluates to y whenever x is falsy (None or the empty
string).  These helpers mirror that in the places the source relies on it. -/

/-- Python x or y for strings (empty string is falsy). -/
def pyOrStr (a b : String) : String := if a = "" then b else a

/-- Python x or y where x is an optional string and y a default string. -/
def pyOrOptStr (a : Option String) (b : String) : String :=
  match a with
  | some s => if s = "" then b else s
  | none => b

/-- Python x or y where both sides are optional strings
(None and the empty string both fall through to y). -/
def pyOrOpt (a b : Option String) : Option String :=
  match a with
  | some s => if s = "" then b else some s
  | none => b

/-- Python truthiness of an optional string. -/
def truthyOpt (a : Option String) : Bool :=
  match a with
  | some s => s ≠ ""
  | none => false

/-- Python str.strip on the character list (kept structural so concrete
inputs evaluate). -/
def trimChars (l : List Char) : List Char :=
  ((l.dropWhile fun c => c.isWhitespace).reverse.dropWhile
    (fun c => c.isWhitespace)).reverse

/-- Python str.strip. -/
def pyStrip (s : String) : String := String.mk (trimChars s.data)

/-- Python str.lower (character-wise, structural). -/
def pyLower (s : String) : String := String.mk (s.data.map Char.toLower)

/-- Python str.startswith. -/
def pyStartsWith (s pre : String) : Bool := headMatches pre.data s.data

/-! ### Association lists standing in for Python dicts -/

/-- Python dict lookup d.get(k). -/
def dictGet {α : Type} (l : List (String × α)) (k : String) : Option α :=
  match l with
  | [] => none
  | (k', v) :: t => if k' = k then some v else dictGet t k

/-- Python dict assignment d[k] = v (overwrites a previous binding). -/
def dictSet {α : Type} (l : List (String × α)) (k : String) (v : α) :
    List (String × α) :=
  (k, v) :: l.filter (fun p => p.1 ≠ k)

theorem dictGet_dictSet {α : Type} (l : List (String × α)) (k : String) (v : α) :
    dictGet (dictSet l k v) k = some v := by
  simp [dictGet, dictSet]

/-! ### sanitize_filename

re.sub r with the path-unsafe character class replaces every maximal run of
bad characters by one underscore; the result is stripped and an empty
result falls back to the supplied default. -/

/-- The path-unsafe characters stripped by sanitize_filename. -/
def isBadChar (c : Char) : Bool :=
  c == '\\' || c == '/' || c == ':' || c == '*' || c == '?' ||
  c == '"' || c == '<' || c == '>' || c == '|'

/-- Replace runs of path-unsafe characters with a single underscore;
the flag records whether the previous character was part of a run. -/
def squashGo (prevBad : Bool) : List Char → List Char
  | [] => []
  | c :: cs =>
    if isBadChar c then
      (if prevBad then [] else ['_']) ++ squashGo true cs
    else
      c :: squashGo false cs

/-- sanitize_filename from the source: squash path-unsafe characters into
underscores, strip whitespace, fall back when empty. -/
def sanitize_filename (name : String) (fallbk : String := "untitled") : String :=
  let cleaned := pyStrip (String.mk (squashGo false name.data))
  if cleaned = "" then fallbk else cleaned

/-! ### build_headers and fetch_html -/

/-- The shared base request headers (User-Agent only). -/
def BASE_HEADERS : List (String × String) :=
  [("User-Agent",
    "Mozilla/5.0 (Windows NT 10.0; Win64; x64) AppleWebKit/537.36 (KHTML, like Gecko) Chrome/120.0 Safari/537.36")]

/-- build_headers from the source: Accept-Language depends on a zh prefix. -/
def build_headers (languageCode : String) : List (String × String) :=
  if pyStartsWith (pyLower languageCode) "zh" then
    dictSet BASE_HEADERS "Accept-Language" "zh-CN,zh;q=0.9,en;q=0.6"
  else
    dictSet BASE_HEADERS "Accept-Language" "en-US,en;q=0.8"

/-- Outcome of one HTTP GET attempt: a response with status code and body
text, or an httpx.HTTPError carrying a message. -/
inductive FetchResp where
  | resp (status : Nat) (text : String)
  | exc (msg : String)
deriving DecidableEq, Repr

/-- A page transport for one URL: headers and attempt number determine the
outcome.  Deterministic stand-in for the httpx client GET. -/
def FetchNet : Type := List (String × String) → Nat → FetchResp

/-- Warning recorded for a non-success HTTP response
(the f-string HTTP status：url (尝试 attempt/max)). -/
def httpWarn (status : Nat) (url : String) (attempt maxRetries : Nat) : String :=
  "HTTP " ++ toString status ++ "：" ++ url ++
    " (尝试 " ++ toString attempt ++ "/" ++ toString maxRetries ++ ")"

/-- Warning recorded for a transport exception
(the f-string 请求异常：exc (尝试 attempt/max)); note it has no URL. -/
def excWarn (msg : String) (attempt maxRetries : Nat) : String :=
  "请求异常：" ++ msg ++ " (尝试 " ++ toString attempt ++ "/" ++ toString maxRetries ++ ")"

/-- One attempt of fetch_html succeeds iff the status is 200 and the body
is non-empty; otherwise it fails (an exception always fails). -/
def attemptFails : FetchResp → Prop
  | .resp status text => ¬(status = 200 ∧ text ≠ "")
  | .exc _ => True

instance (r : FetchResp) : Decidable (attemptFails r) := by
  cases r with
  | resp s t => exact inferInstanceAs (Decidable ¬(s = 200 ∧ t ≠ ""))
  | exc m => exact inferInstanceAs (Decidable True)

/-- The retry loop of fetch_html.  The extra final component counts how
many transport attempts were actually performed. -/
def fetchGo (net : FetchNet) (url : String) (hs : List (String × String))
    (maxRetries : Nat) :
    Nat → Nat → List String → Nat → Option String × List String × Nat
  | 0, _, ws, calls => (none, ws, calls)
  | remaining + 1, attempt, ws, calls =>
    match net hs attempt with
    | .resp status text =>
      if status = 200 ∧ text ≠ "" then (some text, ws, calls + 1)
      else
        fetchGo net url hs maxRetries remaining (attempt + 1)
          (ws ++ [httpWarn status url attempt maxRetries]) (calls + 1)
    | .exc msg =>
      fetchGo net url hs maxRetries remaining (attempt + 1)
        (ws ++ [excWarn msg attempt maxRetries]) (calls + 1)

/-- fetch_html from the source: the for-loop over attempts 1..maxRetries,
returning the page text on success, None plus the accumulated warnings
after exhausting retries (the transport call count is the model's
instrumentation of the network side effect). -/
def fetch_html (net : FetchNet) (url : String) (languageCode : String)
    (maxRetries : Nat := 3) : Option String × List String × Nat :=
  fetchGo net url (build_headers languageCode) maxRetries maxRetries 1 [] 0

/-- The warning produced by one failed attempt, as a function of the
attempt's outcome. -/
def failWarn (url : String) (maxRetries attempt : Nat) : FetchResp → String
  | .resp status _ => httpWarn status url attempt maxRetries
  | .exc msg => excWarn msg attempt maxRetries

theorem fetchGo_fail_step (net : FetchNet) (url : String)
    (hs : List (String × String)) (maxR rem attempt : Nat) (ws : List String)
    (calls : Nat) (h : attemptFails (net hs attempt)) :
    fetchGo net url hs maxR (rem + 1) attempt ws calls =
      fetchGo net url hs maxR rem (attempt + 1)
        (ws ++ [failWarn url maxR attempt (net hs attempt)]) (calls + 1) := by
  cases hresp : net hs attempt with
  | resp s t =>
    rw [hresp] at h
    have h' : ¬(s = 200 ∧ t ≠ "") := h
    simp only [fetchGo, hresp]
    rw [if_neg h']
    simp [failWarn]
  | exc m => simp [fetchGo, hresp, failWarn]

/-- With a transport failing on every attempt, fetch_html with three retries
performs three attempts and accumulates three warnings, one per attempt. -/
theorem fetch_html_fail3 (net : FetchNet) (url lang : String)
    (hfail : ∀ a, attemptFails (net (build_headers lang) a)) :
    fetch_html net url lang 3 =
      (none,
       [failWarn url 3 1 (net (build_headers lang) 1),
        failWarn url 3 2 (net (build_headers lang) 2),
        failWarn url 3 3 (net (build_headers lang) 3)], 3) := by
  unfold fetch_html
  rw [fetchGo_fail_step net url _ 3 2 1 [] 0 (hfail 1),
      fetchGo_fail_step net url _ 3 1 2 _ 1 (hfail 2),
      fetchGo_fail_step net url _ 3 0 3 _ 2 (hfail 3)]
  simp [fetchGo]

theorem httpWarn_contains_url (s : Nat) (url : String) (a m : Nat) :
    strContains (httpWarn s url a m) url = true := by
  have h : httpWarn s url a m =
      ("HTTP " ++ toString s ++ "：") ++ url ++
        (" (尝试 " ++ toString a ++ "/" ++ toString m ++ ")") := by
    unfold httpWarn
    simp [String.append_assoc]
  rw [h]
  exact strContains_append_middle _ _ _

theorem httpWarn_contains_attempt (s : Nat) (url : String) (a m : Nat) :
    strContains (httpWarn s url a m) (" (尝试 " ++ toString a ++ "/") = true := by
  have h : httpWarn s url a m =
      ("HTTP " ++ toString s ++ "：" ++ url) ++
        (" (尝试 " ++ toString a ++ "/") ++ (toString m ++ ")") := by
    unfold httpWarn
    simp [String.append_assoc]
  rw [h]
  exact strContains_append_middle _ _ _

theorem excWarn_contains_msg (msg : String) (a m : Nat) :
    strContains (excWarn msg a m) msg = true := by
  have h : excWarn msg a m =
      "请求异常：" ++ msg ++ (" (尝试 " ++ toString a ++ "/" ++ toString m ++ ")") := by
    unfold excWarn
    simp [String.append_assoc]
  rw [h]
  exact strContains_append_middle _ _ _

theorem excWarn_contains_attempt (msg : String) (a m : Nat) :
    strContains (excWarn msg a m) (" (尝试 " ++ toString a ++ "/") = true := by
  have h : excWarn msg a m =
      ("请求异常：" ++ msg) ++ (" (尝试 " ++ toString a ++ "/") ++ (toString m ++ ")") := by
    unfold excWarn
    simp [String.append_assoc]
  rw [h]
  exact strContains_append_middle _ _ _

/-- C3 counterexample: with a transport that always raises, the three
accumulated warnings do not all contain the requested URL (the exception
branch records only the exception text and the attempt index), refuting the
claim that every warning string contains the URL. -/
theorem fetch_html_warnings_lack_url_cex :
    (fetch_html (fun _ _ => FetchResp.exc "timeout") "http://x" "en" 3).1 = none ∧
    (fetch_html (fun _ _ => FetchResp.exc "timeout") "http://x" "en" 3).2.1.length = 3 ∧
    ((fetch_html (fun _ _ => FetchResp.exc "timeout") "http://x" "en" 3).2.1.all
      (fun w => strContains w "http://x")) = false := by
  refine ⟨rfl, rfl, ?_⟩
  decide

/-- C3 (amended): for a transport failing on all attempts, fetch_html with
max_retries = 3 performs exactly 3 attempts and returns an absent document
with exactly the 3 per-attempt warnings; every warning contains the attempt
index, warnings for bad HTTP statuses also contain the requested URL, and
warnings for transport exceptions contain the exception text instead;
exceptions never escape (the function is total and returns a value). -/
theorem fetch_html_retry_exhaustion (net : FetchNet) (url lang : String)
    (hfail : ∀ a, attemptFails (net (build_headers lang) a)) :
    fetch_html net url lang 3 =
      (none,
       [failWarn url 3 1 (net (build_headers lang) 1),
        failWarn url 3 2 (net (build_headers lang) 2),
        failWarn url 3 3 (net (build_headers lang) 3)], 3) ∧
    (∀ attempt,
      strContains (failWarn url 3 attempt (net (build_headers lang) attempt))
        (" (尝试 " ++ toString attempt ++ "/") = true) ∧
    (∀ attempt s t, net (build_headers lang) attempt = .resp s t →
      strContains (failWarn url 3 attempt (net (build_headers lang) attempt))
        url = true) ∧
    (∀ attempt msg, net (build_headers lang) attempt = .exc msg →
      strContains (failWarn url 3 attempt (net (build_headers lang) attempt))
        msg = true) := by
  refine ⟨fetch_html_fail3 net url lang hfail, ?_, ?_, ?_⟩
  · intro attempt
    cases h : net (build_headers lang) attempt with
    | resp s t => simpa [failWarn] using httpWarn_contains_attempt s url attempt 3
    | exc m => simpa [failWarn] using excWarn_contains_attempt m attempt 3
  · intro attempt s t h
    rw [h]
    simpa [failWarn] using httpWarn_contains_url s url attempt 3
  · intro attempt msg h
    rw [h]
    simpa [failWarn] using excWarn_contains_msg msg attempt 3

/-- Witness for the amended C3 theorem at a concrete always-404 transport. -/
theorem fetch_html_retry_exhaustion_witness :
    fetch_html (fun _ _ => FetchResp.resp 404 "") "http://u" "en" 3 =
      (none,
       ["HTTP 404：http://u (尝试 1/3)",
        "HTTP 404：http://u (尝试 2/3)",
        "HTTP 404：http://u (尝试 3/3)"], 3) :=
  (fetch_html_retry_exhaustion (fun _ _ => FetchResp.resp 404 "") "http://u" "en"
    (by intro a; show attemptFails (FetchResp.resp 404 ""); decide)).1

/-! ### A minimal DOM standing in for the lxml element tree

Elements carry a tag, attributes and children; text nodes carry a string.
lxml tail text and escaping are not modelled (no claim depends on them). -/

inductive Node where
  | elem (tag : String) (attrs : List (String × String)) (children : List Node)
  | text (s : String)

mutual
def nodeBeq : Node → Node → Bool
  | .text s, .text t => s == t
  | .elem t1 a1 c1, .elem t2 a2 c2 => t1 == t2 && a1 == a2 && nodeBeqL c1 c2
  | _, _ => false

def nodeBeqL : List Node → List Node → Bool
  | [], [] => true
  | a :: as, b :: bs => nodeBeq a b && nodeBeqL as bs
  | _, _ => false
end

mutual
theorem nodeBeq_iff : ∀ a b : Node, nodeBeq a b = true ↔ a = b
  | .text s, .text t => by simp [nodeBeq]
  | .text s, .elem t2 a2 c2 => by simp [nodeBeq]
  | .elem t1 a1 c1, .text t => by simp [nodeBeq]
  | .elem t1 a1 c1, .elem t2 a2 c2 => by
    simp [nodeBeq, nodeBeqL_iff c1 c2, and_assoc]

theorem nodeBeqL_iff : ∀ as bs : List Node, nodeBeqL as bs = true ↔ as = bs
  | [], [] => by simp [nodeBeqL]
  | [], b :: bs => by simp [nodeBeqL]
  | a :: as, [] => by simp [nodeBeqL]
  | a :: as, b :: bs => by
    simp [nodeBeqL, nodeBeq_iff a b, nodeBeqL_iff as bs]
end

instance : DecidableEq Node := fun a b => decidable_of_iff _ (nodeBeq_iff a b)

mutual
/-- All nodes of a tree in document (preorder) order. -/
def preorder : Node → List Node
  | .text s => [.text s]
  | .elem t a cs => .elem t a cs :: preorderL cs

def preorderL : List Node → List Node
  | [] => []
  | n :: ns => preorder n ++ preorderL ns
end

/-- Serialization of an attribute list. -/
def attrsString : List (String × String) → String
  | [] => ""
  | (k, v) :: t => " " ++ k ++ "=\"" ++ v ++ "\"" ++ attrsString t

mutual
/-- lxml_html.tostring with unicode encoding (escaping not modelled). -/
def tostring : Node → String
  | .text s => s
  | .elem t a cs => "<" ++ t ++ attrsString a ++ ">" ++ tostringL cs ++ "</" ++ t ++ ">"

def tostringL : List Node → String
  | [] => ""
  | n :: ns => tostring n ++ tostringL ns
end

/-- Membership in the xpath union //article | //main |
//*[@data-component="Article"] used by the markdown fallback. -/
def isFallbackTarget : Node → Bool
  | .elem tag attrs _ =>
    tag == "article" || tag == "main" ||
      dictGet attrs "data-component" == some "Article"
  | .text _ => false

/-- The HTML fragment the fallback branch of html_to_markdown feeds to
markdownify: the concatenated serializations of every node matched by the
union xpath, in document order, or of the whole tree when none matches. -/
def fallback_fragment (tree : Node) : String :=
  let node := (preorder tree).filter isFallbackTarget
  tostringL (if node.isEmpty then [tree] else node)

/-- html_to_markdown from the source.  haveTraf models whether the
trafilatura import succeeded; traf models trafilatura.extract (None or a
possibly-empty string); mdify models markdownify; parse models
lxml parsing.  The error value models the NameError raised when
trafilatura is importable but returns no result: markdownify was only
imported in the import-failure branch, so the fallback line crashes. -/
def html_to_markdown (haveTraf : Bool) (traf : String → String → Option String)
    (mdify : String → String) (parse : String → Node)
    (htmlText sourceUrl : String) : Except Unit String :=
  if haveTraf then
    match traf htmlText sourceUrl with
    | some r => if r ≠ "" then .ok r else .error ()
    | none => .error ()
  else
    .ok (mdify (fallback_fragment (parse htmlText)))

theorem containsChars_append_left (p t sub : List Char)
    (h : containsChars t sub = true) : containsChars (p ++ t) sub = true := by
  induction p with
  | nil => simpa using h
  | cons c cs ih => exact containsChars_of_tail c _ sub ih

theorem strContains_append_left (a b x : String)
    (h : strContains b x = true) : strContains (a ++ b) x = true := by
  unfold strContains at h ⊢
  rw [String.data_append]
  exact containsChars_append_left a.data b.data x.data h

theorem strContains_self_append (x b : String) :
    strContains (x ++ b) x = true := by
  unfold strContains
  rw [String.data_append]
  exact containsChars_of_head _ _ (headMatches_append x.data b.data)

/-- The serialization of any member of a node list occurs inside the
concatenated serialization of the list. -/
theorem tostringL_contains_mem (l : List Node) (n : Node) (h : n ∈ l) :
    strContains (tostringL l) (tostring n) = true := by
  induction l with
  | nil => cases h
  | cons a t ih =>
    rcases List.mem_cons.mp h with rfl | hmem
    · exact strContains_self_append _ _
    · exact strContains_append_left _ _ _ (ih hmem)

/-- C2 counterexample: on a document holding a sibling article and main
element, the fallback concatenates both; it is not the article's content
alone, and the main element's markup occurs in the output fragment. -/
theorem fallback_first_match_cex :
    fallback_fragment
        (Node.elem "body" []
          [Node.elem "article" [] [Node.text "A"],
           Node.elem "main" [] [Node.text "B"]]) ≠
      tostring (Node.elem "article" [] [Node.text "A"]) ∧
    strContains
      (fallback_fragment
        (Node.elem "body" []
          [Node.elem "article" [] [Node.text "A"],
           Node.elem "main" [] [Node.text "B"]]))
      "<main>B</main>" = true := by
  constructor
  · decide
  · decide

/-- C2 (amended): when the primary extractor is unavailable the fallback
converts the concatenation of the serialized markup of every element
matching the candidate union (an article element, a main element, or an
element flagged as the article component), in document order — so the
serialization of each matching element, a main element included, occurs in
the fragment passed to the converter. -/
theorem fallback_concatenates_all_matches (traf : String → String → Option String)
    (mdify : String → String) (parse : String → Node) (htmlText url : String)
    (n : Node) (hmem : n ∈ preorder (parse htmlText))
    (htarget : isFallbackTarget n = true) :
    html_to_markdown false traf mdify parse htmlText url =
      .ok (mdify (fallback_fragment (parse htmlText))) ∧
    strContains (fallback_fragment (parse htmlText)) (tostring n) = true := by
  refine ⟨rfl, ?_⟩
  have hmem' : n ∈ (preorder (parse htmlText)).filter isFallbackTarget :=
    List.mem_filter.mpr ⟨hmem, htarget⟩
  unfold fallback_fragment
  cases hf : (preorder (parse htmlText)).filter isFallbackTarget with
  | nil => rw [hf] at hmem'; cases hmem'
  | cons a t =>
    rw [hf] at hmem'
    simpa using tostringL_contains_mem (a :: t) n hmem'

/-- Witness for the amended C2 theorem on the two-sibling document. -/
theorem fallback_concatenates_all_matches_witness :
    html_to_markdown false (fun _ _ => none) (fun s => s)
      (fun _ =>
        Node.elem "body" []
          [Node.elem "article" [] [Node.text "A"],
           Node.elem "main" [] [Node.text "B"]]) "h" "u" =
      .ok "<article>A</article><main>B</main>" ∧
    strContains "<article>A</article><main>B</main>"
      (tostring (Node.elem "main" [] [Node.text "B"])) = true :=
  fallback_concatenates_all_matches (fun _ _ => none) (fun s => s)
    (fun _ =>
      Node.elem "body" []
        [Node.elem "article" [] [Node.text "A"],
         Node.elem "main" [] [Node.text "B"]]) "h" "u"
    (Node.elem "main" [] [Node.text "B"]) (by decide) (by decide)

/-- The ArticleMeta dataclass. -/
structure ArticleMeta where
  title : String
  author : String
  published : String
  source_url : String
  language : String
deriving DecidableEq, Repr

/-! ### JSON-LD metadata model and extract_article_meta

json.loads is an external collaborator: the model receives, per script
text, the already-parsed shape of the payload, restricted to the fields
the source reads. -/

/-- One entry of a JSON-LD author list: a dict (possibly without a name
key) or any non-dict value, which the source skips. -/
inductive AuthorEntry where
  | item (name : Option String)
  | other
deriving DecidableEq, Repr

/-- The author field of a JSON-LD item: a list, a dict, or another JSON
value (e.g. a plain string), which the source leaves the author as-is. -/
inductive AuthorData where
  | many (entries : List AuthorEntry)
  | one (name : Option String)
  | other
deriving DecidableEq, Repr

/-- The fields of one JSON-LD dict the source reads. -/
structure LdItem where
  type : Option String
  headline : Option String
  datePublished : Option String
  author : Option AuthorData
deriving DecidableEq, Repr

/-- One entry of a JSON-LD array payload. -/
inductive LdEntry where
  | item (i : LdItem)
  | other
deriving DecidableEq, Repr

/-- The parse outcome of one JSON-LD script text. -/
inductive LdScript where
  | parseError
  | single (i : LdItem)
  | array (entries : List LdEntry)
  | otherPayload
deriving DecidableEq, Repr

/-- The candidate dicts of one payload: the dict itself, the dict entries
of a list payload, or nothing. -/
def candidatesOf : LdScript → List LdItem
  | .parseError => []
  | .otherPayload => []
  | .single i => [i]
  | .array es => es.filterMap (fun e => match e with | .item i => some i | .other => none)

/-- The @type gate: only Article / NewsArticle dicts contribute. -/
def isArticleType (i : LdItem) : Bool :=
  i.type == some "Article" || i.type == some "NewsArticle"

/-- ", ".join(filter(None, names)) over the dict entries of an author
list. -/
def joinNames (entries : List AuthorEntry) : String :=
  String.intercalate ", "
    (((entries.filterMap (fun e => match e with | .item n => n | .other => none))).filter
      (fun s => s ≠ ""))

/-- One iteration of the metadata loop: state is (title, author,
published); each field is overwritten by a truthy value of an article-typed
dict and kept otherwise (the author dict case keeps a present empty name). -/
def metaStep (st : String × String × String) (i : LdItem) : String × String × String :=
  if isArticleType i then
    let title := pyOrOptStr i.headline st.1
    let published := pyOrOptStr i.datePublished st.2.2
    let author :=
      match i.author with
      | some (.many es) => pyOrStr (joinNames es) st.2.1
      | some (.one n) => (match n with | some v => v | none => st.2.1)
      | some .other => st.2.1
      | none => st.2.1
    (title, author, published)
  else st

/-- Text of every JSON-LD script element, one string per text child, in
document order. -/
def ldScriptTexts (tree : Node) : List String :=
  (preorder tree).flatMap (fun n =>
    match n with
    | .elem tag attrs cs =>
      if tag = "script" ∧ dictGet attrs "type" = some "application/ld+json" then
        cs.filterMap (fun c => match c with | .text s => some s | _ => none)
      else []
    | .text _ => [])

mutual
/-- XPath string value of a node: its concatenated descendant text. -/
def textContent : Node → String
  | .text s => s
  | .elem _ _ cs => textContentL cs

def textContentL : List Node → String
  | [] => ""
  | n :: ns => textContent n ++ textContentL ns
end

/-- XPath string(//pred): string value of the first matching node, or the
empty string. -/
def stringOfFirst (p : Node → Bool) (tree : Node) : String :=
  match (preorder tree).find? p with
  | some n => textContent n
  | none => ""

/-- Tag test for elements. -/
def isTag (t : String) : Node → Bool := fun n =>
  match n with
  | .elem tag _ _ => tag == t
  | .text _ => false

/-- data-testid attribute test for elements. -/
def hasTestId (v : String) : Node → Bool := fun n =>
  match n with
  | .elem _ attrs _ => dictGet attrs "data-testid" == some v
  | .text _ => false

/-- The flattened sequence of JSON-LD candidate dicts the metadata loop
visits, in encounter order. -/
def articleScanItems (jsonParse : String → LdScript) (tree : Node) : List LdItem :=
  ((ldScriptTexts tree).map jsonParse).flatMap candidatesOf

/-- extract_article_meta from the source: scan every JSON-LD block (later
truthy values overwrite earlier ones), then fall back to the first h1 and
the data-testid tagged elements, then apply the fixed placeholders. -/
def extract_article_meta (jsonParse : String → LdScript) (tree : Node)
    (languageCode sourceUrl : String) : ArticleMeta :=
  let scan := ((ldScriptTexts tree).map jsonParse).foldl
      (fun st blk => (candidatesOf blk).foldl metaStep st) ("", "", "")
  let title0 := scan.1
  let author0 := scan.2.1
  let published0 := scan.2.2
  let title1 :=
    if title0 = "" then pyStrip (stringOfFirst (isTag "h1") tree) else title0
  let author1 :=
    if author0 = "" then pyStrip (stringOfFirst (hasTestId "byline-name") tree)
    else author0
  let published1 :=
    if published0 = "" then pyStrip (stringOfFirst (hasTestId "publish-date") tree)
    else published0
  { title := pyOrStr title1 "未命名文章"
    author := pyOrStr author1 "未知作者"
    published := published1
    source_url := sourceUrl
    language := languageCode }

theorem foldl_nested_eq_bind {α β : Type} (f : α → LdItem → α) (g : β → List LdItem)
    (l : List β) (init : α) :
    l.foldl (fun st b => (g b).foldl f st) init = (l.flatMap g).foldl f init := by
  induction l generalizing init with
  | nil => rfl
  | cons b t ih =>
    simp only [List.foldl_cons, List.flatMap_cons, List.foldl_append]
    exact ih _

/-- C7: the metadata scan is last-wins per field, each field on its own.
Whenever the flattened candidate sequence ends with an article-typed dict,
that dict's non-empty headline is the extracted title, its non-empty
datePublished the published date, and its author — a dict with a non-empty
name, or a list whose joined names are non-empty — the extracted author,
whatever the earlier blocks contained. -/
theorem extract_article_meta_last_wins (jsonParse : String → LdScript)
    (tree : Node) (lang url : String) (pre : List LdItem) (i : LdItem)
    (hitems : articleScanItems jsonParse tree = pre ++ [i])
    (htype : isArticleType i = true) :
    (∀ t, i.headline = some t → t ≠ "" →
      (extract_article_meta jsonParse tree lang url).title = t) ∧
    (∀ d, i.datePublished = some d → d ≠ "" →
      (extract_article_meta jsonParse tree lang url).published = d) ∧
    (∀ n, i.author = some (.one (some n)) → n ≠ "" →
      (extract_article_meta jsonParse tree lang url).author = n) ∧
    (∀ es, i.author = some (.many es) → joinNames es ≠ "" →
      (extract_article_meta jsonParse tree lang url).author = joinNames es) := by
  have hfold : ((ldScriptTexts tree).map jsonParse).foldl
      (fun st blk => (candidatesOf blk).foldl metaStep st) ("", "", "") =
      metaStep (List.foldl metaStep ("", "", "") pre) i := by
    rw [foldl_nested_eq_bind]
    unfold articleScanItems at hitems
    rw [hitems, List.foldl_append]
    simp only [List.foldl_cons, List.foldl_nil]
  refine ⟨?_, ?_, ?_, ?_⟩
  · intro t hheadline ht
    unfold extract_article_meta
    rw [hfold]
    have h1 : (metaStep (List.foldl metaStep ("", "", "") pre) i).1 = t := by
      simp [metaStep, htype, hheadline, pyOrOptStr, ht]
    simp [h1, pyOrStr, ht]
  · intro d hdate hd
    unfold extract_article_meta
    rw [hfold]
    have h2 : (metaStep (List.foldl metaStep ("", "", "") pre) i).2.2 = d := by
      simp [metaStep, htype, hdate, pyOrOptStr, hd]
    simp [h2, pyOrStr, hd]
  · intro n hauthor hn
    unfold extract_article_meta
    rw [hfold]
    have h3 : (metaStep (List.foldl metaStep ("", "", "") pre) i).2.1 = n := by
      simp [metaStep, htype, hauthor]
    simp [h3, pyOrStr, hn]
  · intro es hauthor hes
    unfold extract_article_meta
    rw [hfold]
    have h4 : (metaStep (List.foldl metaStep ("", "", "") pre) i).2.1 =
        joinNames es := by
      simp [metaStep, htype, hauthor, pyOrStr, hes]
    simp [h4, pyOrStr, hes]

/-- Witness for C7 on a document with two article-typed JSON-LD blocks
carrying different non-empty titles, dates and authors: the later block
wins for every field. -/
theorem extract_article_meta_last_wins_witness :
    (extract_article_meta
      (fun s => if s = "s1"
        then LdScript.single
          ⟨some "Article", some "T1", some "D1", some (.one (some "A1"))⟩
        else LdScript.single
          ⟨some "NewsArticle", some "T2", some "D2", some (.one (some "A2"))⟩)
      (Node.elem "html" []
        [Node.elem "script" [("type", "application/ld+json")] [Node.text "s1"],
         Node.elem "script" [("type", "application/ld+json")] [Node.text "s2"]])
      "en" "u").title = "T2" ∧
    (extract_article_meta
      (fun s => if s = "s1"
        then LdScript.single
          ⟨some "Article", some "T1", some "D1", some (.one (some "A1"))⟩
        else LdScript.single
          ⟨some "NewsArticle", some "T2", some "D2", some (.one (some "A2"))⟩)
      (Node.elem "html" []
        [Node.elem "script" [("type", "application/ld+json")] [Node.text "s1"],
         Node.elem "script" [("type", "application/ld+json")] [Node.text "s2"]])
      "en" "u").published = "D2" ∧
    (extract_article_meta
      (fun s => if s = "s1"
        then LdScript.single
          ⟨some "Article", some "T1", some "D1", some (.one (some "A1"))⟩
        else LdScript.single
          ⟨some "NewsArticle", some "T2", some "D2", some (.one (some "A2"))⟩)
      (Node.elem "html" []
        [Node.elem "script" [("type", "application/ld+json")] [Node.text "s1"],
         Node.elem "script" [("type", "application/ld+json")] [Node.text "s2"]])
      "en" "u").author = "A2" :=
  ⟨(extract_article_meta_last_wins
      (fun s => if s = "s1"
        then LdScript.single
          ⟨some "Article", some "T1", some "D1", some (.one (some "A1"))⟩
        else LdScript.single
          ⟨some "NewsArticle", some "T2", some "D2", some (.one (some "A2"))⟩)
      (Node.elem "html" []
        [Node.elem "script" [("type", "application/ld+json")] [Node.text "s1"],
         Node.elem "script" [("type", "application/ld+json")] [Node.text "s2"]])
      "en" "u" [⟨some "Article", some "T1", some "D1", some (.one (some "A1"))⟩]
      ⟨some "NewsArticle", some "T2", some "D2", some (.one (some "A2"))⟩
      (by decide) (by decide)).1 "T2" rfl (by decide),
   (extract_article_meta_last_wins
      (fun s => if s = "s1"
        then LdScript.single
          ⟨some "Article", some "T1", some "D1", some (.one (some "A1"))⟩
        else LdScript.single
          ⟨some "NewsArticle", some "T2", some "D2", some (.one (some "A2"))⟩)
      (Node.elem "html" []
        [Node.elem "script" [("type", "application/ld+json")] [Node.text "s1"],
         Node.elem "script" [("type", "application/ld+json")] [Node.text "s2"]])
      "en" "u" [⟨some "Article", some "T1", some "D1", some (.one (some "A1"))⟩]
      ⟨some "NewsArticle", some "T2", some "D2", some (.one (some "A2"))⟩
      (by decide) (by decide)).2.1 "D2" rfl (by decide),
   (extract_article_meta_last_wins
      (fun s => if s = "s1"
        then LdScript.single
          ⟨some "Article", some "T1", some "D1", some (.one (some "A1"))⟩
        else LdScript.single
          ⟨some "NewsArticle", some "T2", some "D2", some (.one (some "A2"))⟩)
      (Node.elem "html" []
        [Node.elem "script" [("type", "application/ld+json")] [Node.text "s1"],
         Node.elem "script" [("type", "application/ld+json")] [Node.text "s2"]])
      "en" "u" [⟨some "Article", some "T1", some "D1", some (.one (some "A1"))⟩]
      ⟨some "NewsArticle", some "T2", some "D2", some (.one (some "A2"))⟩
      (by decide) (by decide)).2.2.1 "A2" rfl (by decide)⟩

/-! ### rewrite_markdown_images

MD_IMAGE_PATTERN is the regex for an image reference: a bang, an opening
bracket, an alt run free of closing brackets, a closing bracket, an opening
parenthesis, a non-empty src run free of closing parentheses, a closing
parenthesis.  re.sub scans positions left to right, replaces each
non-overlapping leftmost match and continues after it; the model mirrors
that scan. -/

def scanTo (stop : Char) : List Char → Option (List Char × List Char)
  | [] => none
  | c :: cs =>
    if c = stop then some ([], cs)
    else (scanTo stop cs).map (fun p => (c :: p.1, p.2))

theorem scanTo_eq_some (stop : Char) :
    ∀ (l a r : List Char), scanTo stop l = some (a, r) →
      l = a ++ stop :: r ∧ stop ∉ a := by
  intro l
  induction l with
  | nil => intro a r h; simp [scanTo] at h
  | cons c cs ih =>
    intro a r h
    by_cases hc : c = stop
    · subst hc
      simp [scanTo] at h
      obtain ⟨rfl, rfl⟩ := h
      simp
    · rw [scanTo, if_neg hc] at h
      cases hmap : scanTo stop cs with
      | none => rw [hmap] at h; simp at h
      | some pr =>
        obtain ⟨a', r'⟩ := pr
        rw [hmap] at h
        simp only [Option.map_some', Option.some.injEq, Prod.mk.injEq] at h
        obtain ⟨rfl, rfl⟩ := h
        obtain ⟨hcs, hmem⟩ := ih a' r' hmap
        subst hcs
        refine ⟨by simp, ?_⟩
        intro hin
        rcases List.mem_cons.mp hin with he | he
        · exact hc he.symm
        · exact hmem he

theorem scanTo_append (stop : Char) :
    ∀ (a r : List Char), stop ∉ a → scanTo stop (a ++ stop :: r) = some (a, r) := by
  intro a
  induction a with
  | nil => intro r h; simp [scanTo]
  | cons c cs ih =>
    intro r h
    have hc : ¬(c = stop) := fun he => h (by simp [he])
    have hrec := ih r (fun hm => h (List.mem_cons_of_mem _ hm))
    simp [scanTo, hc, hrec]

/-- Attempt the image regex at the start of the input: alt is the run
before the first closing bracket, an opening parenthesis must follow
immediately, src is the non-empty run before the first closing
parenthesis. -/
def tryMatchAt (l : List Char) : Option (List Char × List Char × List Char) :=
  match l with
  | c1 :: c2 :: rest =>
    if c1 = '!' ∧ c2 = '[' then
      match scanTo ']' rest with
      | some (alt, r2) =>
        match r2 with
        | c3 :: r2t =>
          if c3 = '(' then
            match scanTo ')' r2t with
            | some (src, r3) => if src = [] then none else some (alt, src, r3)
            | none => none
          else none
        | [] => none
      | none => none
    else none
  | _ => none

/-- The leftmost match of the image regex: the text before the match, the
alt text, the src text, and the rest of the input after the match. -/
def findMatch : List Char → Option (List Char × List Char × List Char × List Char)
  | [] => none
  | c :: cs =>
    match tryMatchAt (c :: cs) with
    | some (alt, src, rest) => some ([], alt, src, rest)
    | none => (findMatch cs).map (fun q => (c :: q.1, q.2))

/-- The scanner on a sample: prefix, alt, src and rest of the leftmost
match. -/
theorem findMatch_sample : findMatch "ab ![x](u) cd".data =
    some ("ab ".data, "x".data, "u".data, " cd".data) := by decide

theorem tryMatchAt_eq_some (l alt src rest : List Char)
    (h : tryMatchAt l = some (alt, src, rest)) :
    l = '!' :: '[' :: (alt ++ ']' :: '(' :: (src ++ ')' :: rest)) ∧
    ']' ∉ alt ∧ ')' ∉ src ∧ src ≠ [] := by
  match l with
  | [] => simp [tryMatchAt] at h
  | [c] => simp [tryMatchAt] at h
  | c1 :: c2 :: r =>
    rw [tryMatchAt] at h
    by_cases hc : c1 = '!' ∧ c2 = '['
    · rw [if_pos hc] at h
      obtain ⟨rfl, rfl⟩ := hc
      cases h1 : scanTo ']' r with
      | none => rw [h1] at h; simp at h
      | some pr =>
        obtain ⟨alt', r2⟩ := pr
        rw [h1] at h
        simp only [] at h
        cases r2 with
        | nil => simp at h
        | cons c3 r2t =>
          simp only [] at h
          by_cases hc3 : c3 = '('
          · rw [if_pos hc3] at h
            subst hc3
            cases h2 : scanTo ')' r2t with
            | none => rw [h2] at h; simp at h
            | some pr2 =>
              obtain ⟨src', r3⟩ := pr2
              rw [h2] at h
              simp only [] at h
              by_cases hsrc : src' = []
              · rw [if_pos hsrc] at h; simp at h
              · rw [if_neg hsrc] at h
                simp only [Option.some.injEq, Prod.mk.injEq] at h
                obtain ⟨rfl, rfl, rfl⟩ := h
                obtain ⟨ha, hma⟩ := scanTo_eq_some ']' r alt' ('(' :: r2t) h1
                obtain ⟨hb, hmb⟩ := scanTo_eq_some ')' r2t src' r3 h2
                subst hb
                subst ha
                exact ⟨rfl, hma, hmb, hsrc⟩
          · rw [if_neg hc3] at h; simp at h
    · rw [if_neg hc] at h; simp at h

theorem tryMatchAt_build (alt src rest : List Char) (hma : ']' ∉ alt)
    (hmb : ')' ∉ src) (hsrc : src ≠ []) :
    tryMatchAt ('!' :: '[' :: (alt ++ ']' :: '(' :: (src ++ ')' :: rest))) =
      some (alt, src, rest) := by
  rw [tryMatchAt]
  rw [if_pos ⟨rfl, rfl⟩]
  rw [scanTo_append ']' alt ('(' :: (src ++ ')' :: rest)) hma]
  simp only [if_true]
  rw [scanTo_append ')' src rest hmb]
  simp only []
  rw [if_neg hsrc]

theorem findMatch_eq_some :
    ∀ (l p alt src rest : List Char), findMatch l = some (p, alt, src, rest) →
      l = p ++ '!' :: '[' :: (alt ++ ']' :: '(' :: (src ++ ')' :: rest)) ∧
      ']' ∉ alt ∧ ')' ∉ src ∧ src ≠ [] := by
  intro l
  induction l with
  | nil => intro p alt src rest h; simp [findMatch] at h
  | cons c cs ih =>
    intro p alt src rest h
    rw [findMatch] at h
    cases ht : tryMatchAt (c :: cs) with
    | some m =>
      obtain ⟨alt', src', rest'⟩ := m
      rw [ht] at h
      simp only [Option.some.injEq, Prod.mk.injEq] at h
      obtain ⟨rfl, rfl, rfl, rfl⟩ := h
      obtain ⟨hl, hma, hmb, hsrc⟩ := tryMatchAt_eq_some (c :: cs) alt' src' rest' ht
      exact ⟨by simpa using hl, hma, hmb, hsrc⟩
    | none =>
      rw [ht] at h
      cases hfm : findMatch cs with
      | none => rw [hfm] at h; simp at h
      | some q =>
        obtain ⟨p', alt', src', rest'⟩ := q
        rw [hfm] at h
        simp only [Option.map_some', Option.some.injEq, Prod.mk.injEq] at h
        obtain ⟨rfl, rfl, rfl, rfl⟩ := h
        obtain ⟨hl, hma, hmb, hsrc⟩ := ih p' alt' src' rest' hfm
        exact ⟨by rw [List.cons_append, ← hl], hma, hmb, hsrc⟩

theorem findMatch_rest_length (l p alt src rest : List Char)
    (h : findMatch l = some (p, alt, src, rest)) : rest.length < l.length := by
  obtain ⟨hl, _, _, _⟩ := findMatch_eq_some l p alt src rest h
  subst hl
  simp [List.length_append]
  omega

theorem findMatch_build (alt src rest : List Char) (hma : ']' ∉ alt)
    (hmb : ')' ∉ src) (hsrc : src ≠ []) :
    findMatch ('!' :: '[' :: (alt ++ ']' :: '(' :: (src ++ ')' :: rest))) =
      some ([], alt, src, rest) := by
  rw [findMatch]
  rw [tryMatchAt_build alt src rest hma hmb hsrc]

def rewriteGo (m : String → Option String) : Nat → List Char → List Char
  | 0, cs => cs
  | fuel + 1, cs =>
    match findMatch cs with
    | none => cs
    | some (p, alt, src, rest) =>
      p ++ '!' :: '[' :: (alt ++ ']' :: '(' ::
        (((m (String.mk src)).getD (String.mk src)).data ++ ')' ::
          rewriteGo m fuel rest))

def imageUrlsGo : Nat → List Char → List String
  | 0, _ => []
  | fuel + 1, cs =>
    match findMatch cs with
    | none => []
    | some (_, _, src, rest) => String.mk src :: imageUrlsGo fuel rest

def rewriteChars (m : String → Option String) (cs : List Char) : List Char :=
  rewriteGo m cs.length cs

def imageUrlsChars (cs : List Char) : List String :=
  imageUrlsGo cs.length cs

theorem rewriteGo_nil (m : String → Option String) :
    ∀ fuel, rewriteGo m fuel [] = [] := by
  intro fuel
  cases fuel with
  | zero => rfl
  | succ f =>
    rw [rewriteGo, show findMatch [] = none from rfl]

theorem imageUrlsGo_nil : ∀ fuel, imageUrlsGo fuel [] = [] := by
  intro fuel
  cases fuel with
  | zero => rfl
  | succ f =>
    rw [imageUrlsGo, show findMatch [] = none from rfl]

theorem rewriteGo_congr (m : String → Option String) :
    ∀ f1 cs f2, cs.length ≤ f1 → cs.length ≤ f2 →
      rewriteGo m f1 cs = rewriteGo m f2 cs := by
  intro f1
  induction f1 with
  | zero =>
    intro cs f2 h1 h2
    rw [List.eq_nil_of_length_eq_zero (Nat.le_zero.mp h1)]
    rw [rewriteGo_nil, rewriteGo_nil]
  | succ f ih =>
    intro cs f2 h1 h2
    cases f2 with
    | zero =>
      rw [List.eq_nil_of_length_eq_zero (Nat.le_zero.mp h2)]
      rw [rewriteGo_nil, rewriteGo_nil]
    | succ f2' =>
      cases hm : findMatch cs with
      | none => rw [rewriteGo, hm, rewriteGo, hm]
      | some q =>
        obtain ⟨p, alt, src, rest⟩ := q
        have hlt := findMatch_rest_length cs p alt src rest hm
        rw [rewriteGo, hm, rewriteGo, hm]
        simp only []
        rw [ih rest f2' (by omega) (by omega)]

theorem imageUrlsGo_congr :
    ∀ f1 cs f2, cs.length ≤ f1 → cs.length ≤ f2 →
      imageUrlsGo f1 cs = imageUrlsGo f2 cs := by
  intro f1
  induction f1 with
  | zero =>
    intro cs f2 h1 h2
    rw [List.eq_nil_of_length_eq_zero (Nat.le_zero.mp h1)]
    rw [imageUrlsGo_nil, imageUrlsGo_nil]
  | succ f ih =>
    intro cs f2 h1 h2
    cases f2 with
    | zero =>
      rw [List.eq_nil_of_length_eq_zero (Nat.le_zero.mp h2)]
      rw [imageUrlsGo_nil, imageUrlsGo_nil]
    | succ f2' =>
      cases hm : findMatch cs with
      | none => rw [imageUrlsGo, hm, imageUrlsGo, hm]
      | some q =>
        obtain ⟨p, alt, src, rest⟩ := q
        have hlt := findMatch_rest_length cs p alt src rest hm
        rw [imageUrlsGo, hm, imageUrlsGo, hm]
        simp only []
        rw [ih rest f2' (by omega) (by omega)]

theorem rewriteChars_eq_none (m : String → Option String) (cs : List Char)
    (h : findMatch cs = none) : rewriteChars m cs = cs := by
  unfold rewriteChars
  cases hl : cs.length with
  | zero => rfl
  | succ n =>
    rw [rewriteGo, h]

theorem rewriteChars_eq_some (m : String → Option String)
    (cs p alt src rest : List Char)
    (h : findMatch cs = some (p, alt, src, rest)) :
    rewriteChars m cs =
      p ++ '!' :: '[' :: (alt ++ ']' :: '(' ::
        (((m (String.mk src)).getD (String.mk src)).data ++ ')' ::
          rewriteChars m rest)) := by
  unfold rewriteChars
  have hlt := findMatch_rest_length cs p alt src rest h
  cases hl : cs.length with
  | zero =>
    exfalso
    rw [List.eq_nil_of_length_eq_zero hl] at h
    simp [findMatch] at h
  | succ n =>
    rw [rewriteGo, h]
    simp only []
    rw [rewriteGo_congr m n rest rest.length (by omega) (by omega)]

theorem imageUrlsChars_eq_none (cs : List Char) (h : findMatch cs = none) :
    imageUrlsChars cs = [] := by
  unfold imageUrlsChars
  cases hl : cs.length with
  | zero => rfl
  | succ n =>
    rw [imageUrlsGo, h]

theorem imageUrlsChars_eq_some (cs p alt src rest : List Char)
    (h : findMatch cs = some (p, alt, src, rest)) :
    imageUrlsChars cs = String.mk src :: imageUrlsChars rest := by
  unfold imageUrlsChars
  have hlt := findMatch_rest_length cs p alt src rest h
  cases hl : cs.length with
  | zero =>
    exfalso
    rw [List.eq_nil_of_length_eq_zero hl] at h
    simp [findMatch] at h
  | succ n =>
    rw [imageUrlsGo, h]
    simp only []
    rw [imageUrlsGo_congr n rest rest.length (by omega) (by omega)]

theorem rewriteChars_id (m : String → Option String) :
    ∀ (cs : List Char), (∀ u ∈ imageUrlsChars cs, m u = none) →
      rewriteChars m cs = cs := by
  have main : ∀ fuel cs, cs.length ≤ fuel →
      (∀ u ∈ imageUrlsChars cs, m u = none) → rewriteChars m cs = cs := by
    intro fuel
    induction fuel with
    | zero =>
      intro cs h1 _
      rw [List.eq_nil_of_length_eq_zero (Nat.le_zero.mp h1)]
      rfl
    | succ f ih =>
      intro cs h1 h
      cases hm : findMatch cs with
      | none => exact rewriteChars_eq_none m cs hm
      | some q =>
        obtain ⟨p, alt, src, rest⟩ := q
        have hlt := findMatch_rest_length cs p alt src rest hm
        have hurls := imageUrlsChars_eq_some cs p alt src rest hm
        have hsrcmap : m (String.mk src) = none := by
          apply h
          rw [hurls]
          exact List.mem_cons_self _ _
        have hrec : rewriteChars m rest = rest := by
          apply ih rest (by omega)
          intro u hu
          apply h
          rw [hurls]
          exact List.mem_cons_of_mem _ hu
        rw [rewriteChars_eq_some m cs p alt src rest hm, hsrcmap]
        obtain ⟨hl, hma, hmb, hsrc⟩ := findMatch_eq_some cs p alt src rest hm
        rw [hl]
        simp [hrec]
  exact fun cs => main cs.length cs (Nat.le_refl _)

theorem stringDataInj (a b : String) (h : a.data = b.data) : a = b := by
  cases a with
  | mk d1 =>
    cases b with
    | mk d2 => rw [show d1 = d2 from h]

def rewrite_markdown_images (replacementGet : String → Option String)
    (markdownText : String) : String :=
  String.mk (rewriteChars replacementGet markdownText.data)

def imageUrls (text : String) : List String := imageUrlsChars text.data

theorem rewrite_markdown_images_head (m : String → Option String)
    (alt src post : String) (hma : ']' ∉ alt.data) (hmb : ')' ∉ src.data)
    (hsrc : src ≠ "") :
    rewrite_markdown_images m ("![" ++ alt ++ "](" ++ src ++ ")" ++ post) =
      "![" ++ alt ++ "](" ++ ((m src).getD src) ++ ")" ++
        rewrite_markdown_images m post := by
  have hsrcd : src.data ≠ [] := by
    intro h0
    apply hsrc
    cases src with
    | mk d => rw [show d = [] from h0]
  have h1 : ("![" : String).data = ['!', '['] := rfl
  have h2 : ("](" : String).data = [']', '('] := rfl
  have h3 : (")" : String).data = [')'] := rfl
  have hdata : ("![" ++ alt ++ "](" ++ src ++ ")" ++ post).data =
      '!' :: '[' :: (alt.data ++ ']' :: '(' :: (src.data ++ ')' :: post.data)) := by
    simp [String.data_append, h1, h2, h3]
  have hfm := findMatch_build alt.data src.data post.data hma hmb hsrcd
  unfold rewrite_markdown_images
  rw [hdata]
  rw [rewriteChars_eq_some m _ [] alt.data src.data post.data hfm]
  have hdata2 : ("![" ++ alt ++ "](" ++ ((m src).getD src) ++ ")" ++
      String.mk (rewriteChars m post.data)).data =
      '!' :: '[' :: (alt.data ++ ']' :: '(' ::
        (((m src).getD src).data ++ ')' :: rewriteChars m post.data)) := by
    simp [String.data_append, h1, h2, h3]
  have hmk : String.mk src.data = src := by cases src with | mk d => rfl
  rw [hmk]
  show String.mk _ =
    "![" ++ alt ++ "](" ++ ((m src).getD src) ++ ")" ++
      String.mk (rewriteChars m post.data)
  apply stringDataInj
  rw [hdata2]
  simp only [List.nil_append]

theorem rewrite_markdown_images_id (m : String → Option String) (text : String)
    (h : ∀ u ∈ imageUrls text, m u = none) :
    rewrite_markdown_images m text = text := by
  unfold rewrite_markdown_images
  rw [rewriteChars_id m text.data h]


/-- True when no position inside the text starts an image reference: no
bang immediately followed by an opening bracket. -/
def noBB : List Char → Bool
  | c1 :: c2 :: cs => !(c1 == '!' && c2 == '[') && noBB (c2 :: cs)
  | _ => true

/-- One image-reference occurrence of a text: the literal text before it,
the alt text and the URL. -/
structure ImgOcc where
  pre : String
  alt : String
  src : String
deriving DecidableEq, Repr

/-- Rebuild a text from its occurrences and the trailing text. -/
def renderOccs : List ImgOcc → String → String
  | [], trail => trail
  | o :: os, trail =>
    o.pre ++ "![" ++ o.alt ++ "](" ++ o.src ++ ")" ++ renderOccs os trail

/-- Well-formed occurrence: the literal before it starts no reference, the
alt has no closing bracket, the src is non-empty and has no closing
parenthesis — exactly when the scan matches it as written. -/
def occOk (o : ImgOcc) : Prop :=
  noBB o.pre.data = true ∧ ']' ∉ o.alt.data ∧ ')' ∉ o.src.data ∧ o.src ≠ ""

instance (o : ImgOcc) : Decidable (occOk o) := by
  unfold occOk
  infer_instance

theorem tryMatchAt_not_start (c1 c2 : Char) (cs : List Char)
    (h : ¬(c1 = '!' ∧ c2 = '[')) : tryMatchAt (c1 :: c2 :: cs) = none := by
  rw [tryMatchAt, if_neg h]

theorem noBB_head (c1 c2 : Char) (cs : List Char)
    (h : noBB (c1 :: c2 :: cs) = true) : ¬(c1 = '!' ∧ c2 = '[') := by
  rintro ⟨rfl, rfl⟩
  simp [noBB] at h

theorem noBB_tail (c : Char) (cs : List Char) (h : noBB (c :: cs) = true) :
    noBB cs = true := by
  cases cs with
  | nil => rfl
  | cons c2 t =>
    rw [noBB] at h
    exact (Bool.and_eq_true .. |>.mp h).2

/-- The scan skips a reference-free literal whole: the first match of
literal ++ rest is the first match of rest, shifted. -/
theorem findMatch_skip :
    ∀ (pre t : List Char), noBB pre = true →
      findMatch (pre ++ '!' :: t) =
        (findMatch ('!' :: t)).map (fun q => (pre ++ q.1, q.2)) := by
  intro pre
  induction pre with
  | nil =>
    intro t _
    simp only [List.nil_append]
    cases findMatch ('!' :: t) with
    | none => rfl
    | some q =>
      obtain ⟨p, a, sr, r⟩ := q
      simp
  | cons c cs ih =>
    intro t hbb
    have hnone : tryMatchAt (c :: (cs ++ '!' :: t)) = none := by
      cases cs with
      | nil =>
        simp only [List.nil_append]
        apply tryMatchAt_not_start
        rintro ⟨-, h2⟩
        exact absurd h2 (by decide)
      | cons c2 cs' =>
        rw [List.cons_append]
        apply tryMatchAt_not_start
        exact noBB_head c c2 cs' hbb
    rw [List.cons_append, findMatch, hnone]
    simp only []
    rw [ih t (noBB_tail c cs hbb)]
    cases findMatch ('!' :: t) with
    | none => rfl
    | some q =>
      obtain ⟨p, a, sr, r⟩ := q
      simp

/-- The scan rewrites every occurrence of a well-formed decomposition:
each URL that is a key of the mapping becomes the mapped path, each URL
that is not stays as it was, literals and alt texts are untouched. -/
theorem rewrite_markdown_images_occs (m : String → Option String) :
    ∀ (occs : List ImgOcc) (trail : String), (∀ o ∈ occs, occOk o) →
      findMatch trail.data = none →
      rewrite_markdown_images m (renderOccs occs trail) =
        renderOccs
          (occs.map fun o => ⟨o.pre, o.alt, (m o.src).getD o.src⟩) trail := by
  intro occs
  induction occs with
  | nil =>
    intro trail _ htrail
    unfold rewrite_markdown_images
    simp only [renderOccs, List.map_nil]
    rw [rewriteChars_eq_none m _ htrail]
  | cons o os ih =>
    intro trail hok htrail
    obtain ⟨hbb, hma, hmb, hsrc⟩ := hok o (List.mem_cons_self _ _)
    have hsrcd : o.src.data ≠ [] := by
      intro h0
      apply hsrc
      cases hsx : o.src with
      | mk d =>
        rw [hsx] at h0
        rw [show d = [] from h0]
    have h1 : ("![" : String).data = ['!', '['] := rfl
    have h2 : ("](" : String).data = [']', '('] := rfl
    have h3 : (")" : String).data = [')'] := rfl
    have hdata : (renderOccs (o :: os) trail).data =
        o.pre.data ++ '!' :: '[' :: (o.alt.data ++ ']' :: '(' ::
          (o.src.data ++ ')' :: (renderOccs os trail).data)) := by
      simp [renderOccs, String.data_append, h1, h2, h3]
    have hfm : findMatch ((renderOccs (o :: os) trail).data) =
        some (o.pre.data, o.alt.data, o.src.data, (renderOccs os trail).data) := by
      rw [hdata, findMatch_skip o.pre.data _ hbb,
        findMatch_build o.alt.data o.src.data _ hma hmb hsrcd]
      simp
    have hrec := ih trail (fun o2 h2m => hok o2 (List.mem_cons_of_mem _ h2m)) htrail
    have hrecd : rewriteChars m ((renderOccs os trail).data) =
        (renderOccs (os.map fun o2 => ⟨o2.pre, o2.alt, (m o2.src).getD o2.src⟩)
          trail).data := by
      have := congrArg String.data hrec
      simpa [rewrite_markdown_images] using this
    unfold rewrite_markdown_images
    rw [rewriteChars_eq_some m _ _ _ _ _ hfm, hrecd]
    simp only [List.map_cons]
    apply stringDataInj
    simp [renderOccs, String.data_append, h1, h2, h3]

/-- C8: for every text decomposed into its well-formed image-reference
occurrences, rewrite_markdown_images substitutes the mapped local path
into every occurrence whose URL is a key of the mapping and reproduces
every occurrence whose URL is not a key character-for-character
((m src).getD src is the mapped path on a key and src itself otherwise),
leaving the literals, the alt texts and the trailing text untouched; and
on a text none of whose referenced URLs is a key it is the identity. -/
theorem rewrite_markdown_images_spec :
    (∀ (m : String → Option String) (occs : List ImgOcc) (trail : String),
        (∀ o ∈ occs, occOk o) → findMatch trail.data = none →
        rewrite_markdown_images m (renderOccs occs trail) =
          renderOccs
            (occs.map fun o => ⟨o.pre, o.alt, (m o.src).getD o.src⟩) trail) ∧
    (∀ (m : String → Option String) (text : String),
        (∀ u ∈ imageUrls text, m u = none) →
        rewrite_markdown_images m text = text) :=
  ⟨rewrite_markdown_images_occs, rewrite_markdown_images_id⟩

/-- Witness for C8 on a text with two occurrences, the first URL mapped
and the second not: the first is rewritten, the second and every literal
stay; and a text referencing only an unmapped URL is returned unchanged. -/
theorem rewrite_markdown_images_spec_witness :
    rewrite_markdown_images
        (fun u => if u = "http://a/i.png" then some "../assets/i.png" else none)
        (renderOccs
          [⟨"see ", "x", "http://a/i.png"⟩, ⟨" mid ", "y", "http://b/j.png"⟩]
          " end") =
      renderOccs
        [⟨"see ", "x", "../assets/i.png"⟩, ⟨" mid ", "y", "http://b/j.png"⟩]
        " end" ∧
    rewrite_markdown_images
        (fun u => if u = "http://a/i.png" then some "../assets/i.png" else none)
        "see ![x](http://other/y.jpg) end" =
      "see ![x](http://other/y.jpg) end" :=
  ⟨rewrite_markdown_images_spec.1 _
      [⟨"see ", "x", "http://a/i.png"⟩, ⟨" mid ", "y", "http://b/j.png"⟩]
      " end" (by decide) (by decide),
   rewrite_markdown_images_spec.2 _ "see ![x](http://other/y.jpg) end"
      (by decide)⟩

/-! ### AssetManager

Asset paths are kept structurally (index, alt, suffix, extension) and
rendered to the on-disk path string by fsPathString; the collision loop
compares rendered strings, as candidate.exists() does.  The file system
is the list of files that exist; directories (mkdir calls) are not
modelled.  The network transfer count instruments the client.stream side
effect. -/

/-- Decimal digit character. -/
def digitChar (d : Nat) : Char := Char.ofNat (48 + d)

/-- Decimal digit list of a number (fuel-bounded so that concrete inputs
evaluate; the wrapper supplies sufficient fuel). -/
def decStrGo : Nat → Nat → List Char
  | 0, _ => []
  | fuel + 1, n =>
    if n < 10 then [digitChar n]
    else decStrGo fuel (n / 10) ++ [digitChar (n % 10)]

/-- Python str of a natural number: its decimal rendering. -/
def decStr (n : Nat) : String := String.mk (decStrGo (n + 1) n)

/-- Numeric value of a digit character, to invert decStr. -/
def digitVal (c : Char) : Nat := c.toNat - 48

/-- Value of a decimal digit string. -/
def valOfDigits (l : List Char) : Nat :=
  l.foldl (fun acc c => acc * 10 + digitVal c) 0

/-- An asset filename NN_alt.ext, or NN_alt_suffix.ext. -/
structure AssetName where
  index : Nat
  alt : String
  suffix : Option Nat
  ext : String
deriving DecidableEq, Repr

/-- A file the run can create: an asset under assetRoot/slug or a markdown
document under outputRoot/slug (the distinct roots keep the constructors
apart). -/
inductive FsPath where
  | asset (slug : String) (name : AssetName)
  | mdfile (slug : String) (lang : String)
deriving DecidableEq, Repr

/-- Outcome of the streamed GET of one image: success; an httpx error
before the local file is opened (raise_for_status, connection failure); or
an httpx error while streaming, after which the partial file exists. -/
inductive AssetOutcome where
  | ok
  | failEarly (msg : String)
  | failMid (msg : String)
deriving DecidableEq, Repr

/-- A deterministic asset transport: URL to outcome. -/
def AssetNet : Type := String → AssetOutcome

/-- The mutable state threaded through the scraper: the AssetManager cache
(slug to url to path), the files on disk, and how many asset transfers
were attempted. -/
structure ScrState where
  cache : List (String × List (String × FsPath))
  fs : List FsPath
  assetCalls : Nat
deriving DecidableEq, Repr

/-- Two-digit zero-padded rendering (the 02d format). -/
def pad2 (n : Nat) : String :=
  if n < 10 then "0" ++ decStr n else decStr n

/-- The n-th candidate filename of the collision loop: the derived name
itself, then numeric suffixes 1, 2, ... -/
def assetCandidate (index : Nat) (safeAlt ext : String) (n : Nat) : AssetName :=
  { index := index, alt := safeAlt, suffix := if n = 0 then none else some n,
    ext := ext }

/-- The on-disk rendering of an asset filename, as the source's f-strings
build it: NN_alt.ext, or NN_alt_k.ext with the numeric suffix. -/
def assetNameString (n : AssetName) : String :=
  pad2 n.index ++ "_" ++ n.alt ++
    (match n.suffix with
     | none => ""
     | some k => "_" ++ decStr k) ++ n.ext

/-- The on-disk rendering of a path; candidate.exists() compares these
strings against the files on disk. -/
def fsPathString : FsPath → String
  | .asset slug name => "assets/" ++ slug ++ "/" ++ assetNameString name
  | .mdfile slug lang => "output/" ++ slug ++ "/" ++ lang ++ ".md"

/-- The while-loop of ensure_download: take the first candidate whose
rendered path does not exist on disk (candidate.exists() compares path
strings).  The fuel only bounds the search; fs.length + 1 candidates
always contain a free one. -/
def findFreeGo (fs : List FsPath) (cand : Nat → FsPath) : Nat → Nat → Option FsPath
  | 0, _ => none
  | fuel + 1, n =>
    if fsPathString (cand n) ∈ fs.map fsPathString then
      findFreeGo fs cand fuel (n + 1)
    else some (cand n)

/-- The filename chosen for writing on a cache miss. -/
def findFree (fs : List FsPath) (cand : Nat → FsPath) : FsPath :=
  (findFreeGo fs cand (fs.length + 1) 0).getD (cand 0)

/-- AssetManager.ensure_download.  extOf models Path(urlparse(url).path)
.suffix (possibly empty, defaulted to .jpg).  On a cache hit the stored
path is returned with no warning and no transfer.  On a miss the filename
is derived, disambiguated against the disk, and the streamed download is
attempted once: failure returns an absent path and a warning and leaves
the cache unchanged (the setdefault insertion of an empty per-slug dict is
dropped from the model: no lookup can observe it); success records the
file, inserts the cache entry and returns the path. -/
def ensure_download (net : AssetNet) (extOf : String → String) (st : ScrState)
    (slug remoteUrl altText : String) (index : Nat) :
    Option FsPath × Option String × ScrState :=
  let slugCache := (dictGet st.cache slug).getD []
  match dictGet slugCache remoteUrl with
  | some p => (some p, none, st)
  | none =>
    let ext := pyOrStr (extOf remoteUrl) ".jpg"
    let safeAlt := sanitize_filename altText ("image-" ++ pad2 index)
    let candidate :=
      findFree st.fs (fun n => .asset slug (assetCandidate index safeAlt ext n))
    match net remoteUrl with
    | .ok =>
      (some candidate, none,
       { cache := dictSet st.cache slug (dictSet slugCache remoteUrl candidate),
         fs := st.fs ++ [candidate],
         assetCalls := st.assetCalls + 1 })
    | .failEarly msg =>
      (none, some ("图片下载失败：" ++ remoteUrl ++ " -> " ++ msg),
       { st with assetCalls := st.assetCalls + 1 })
    | .failMid msg =>
      (none, some ("图片下载失败：" ++ remoteUrl ++ " -> " ++ msg),
       { st with fs := st.fs ++ [candidate], assetCalls := st.assetCalls + 1 })

/-- The k-th name ensure_download tries on a cache miss: for k = 0 the
derived name NN_safeAlt.ext itself, then the derived name with numeric
suffix k. -/
def derivedCandidate (extOf : String → String) (slug url alt : String)
    (idx k : Nat) : FsPath :=
  FsPath.asset slug (assetCandidate idx
    (sanitize_filename alt ("image-" ++ pad2 idx)) (pyOrStr (extOf url) ".jpg") k)

theorem digitVal_digitChar : ∀ d, d < 10 → digitVal (digitChar d) = d := by
  decide

theorem valOfDigits_append (l : List Char) (c : Char) :
    valOfDigits (l ++ [c]) = valOfDigits l * 10 + digitVal c := by
  simp [valOfDigits, List.foldl_append]

theorem valOfDigits_decStrGo : ∀ fuel n, n < fuel →
    valOfDigits (decStrGo fuel n) = n := by
  intro fuel
  induction fuel with
  | zero => intro n h; omega
  | succ f ih =>
    intro n h
    rw [decStrGo]
    by_cases h10 : n < 10
    · rw [if_pos h10]
      simp [valOfDigits, digitVal_digitChar n h10]
    · rw [if_neg h10]
      rw [valOfDigits_append]
      have hdiv : n / 10 < f := by
        have := Nat.div_lt_self (show 0 < n by omega) (show 1 < 10 by omega)
        omega
      rw [ih (n / 10) hdiv, digitVal_digitChar (n % 10) (Nat.mod_lt n (by omega))]
      omega

/-- Decimal rendering is injective: the digit string determines the
number. -/
theorem decStr_injective (a b : Nat) (h : decStr a = decStr b) : a = b := by
  have ha := valOfDigits_decStrGo (a + 1) a (by omega)
  have hb := valOfDigits_decStrGo (b + 1) b (by omega)
  have hd : decStrGo (a + 1) a = decStrGo (b + 1) b := congrArg String.data h
  rw [hd] at ha
  rw [hb] at ha
  exact ha.symm

theorem strAppend_cancel_left (a b c : String) (h : a ++ b = a ++ c) :
    b = c := by
  apply stringDataInj
  have hd := congrArg String.data h
  rw [String.data_append, String.data_append] at hd
  exact List.append_cancel_left hd

theorem strAppend_cancel_right (a b c : String) (h : a ++ c = b ++ c) :
    a = b := by
  apply stringDataInj
  have hd := congrArg String.data h
  rw [String.data_append, String.data_append] at hd
  exact List.append_cancel_right hd

/-- Within one collision loop the candidates render to pairwise distinct
path strings: the suffix is absent first and then counts up, and decimal
rendering is injective. -/
theorem assetCandidate_render_injective (slug : String) (index : Nat)
    (safeAlt ext : String) :
    Function.Injective (fun n =>
      fsPathString (FsPath.asset slug (assetCandidate index safeAlt ext n))) := by
  intro a b h
  simp only [fsPathString, assetNameString, assetCandidate,
    String.append_assoc] at h
  replace h := strAppend_cancel_left _ _ _ h
  replace h := strAppend_cancel_left _ _ _ h
  replace h := strAppend_cancel_left _ _ _ h
  replace h := strAppend_cancel_left _ _ _ h
  replace h := strAppend_cancel_left _ _ _ h
  replace h := strAppend_cancel_left _ _ _ h
  replace h := strAppend_cancel_right _ _ _ h
  by_cases ha : a = 0
  · by_cases hb : b = 0
    · omega
    · rw [if_pos ha, if_neg hb] at h
      have := congrArg String.data h
      simp [String.data_append] at this
  · by_cases hb : b = 0
    · rw [if_neg ha, if_pos hb] at h
      have := congrArg String.data h
      simp [String.data_append] at this
    · rw [if_neg ha, if_neg hb] at h
      exact decStr_injective a b (strAppend_cancel_left _ _ _ h)

/-- Whatever the while-loop returns is the first candidate whose rendered
path is free: it is not on disk, and every earlier candidate's rendered
path is. -/
theorem findFreeGo_spec (fs : List FsPath) (cand : Nat → FsPath) :
    ∀ fuel n p, findFreeGo fs cand fuel n = some p →
      ∃ m, n ≤ m ∧ p = cand m ∧
        fsPathString (cand m) ∉ fs.map fsPathString ∧
        ∀ j, n ≤ j → j < m → fsPathString (cand j) ∈ fs.map fsPathString := by
  intro fuel
  induction fuel with
  | zero => intro n p h; simp [findFreeGo] at h
  | succ f ih =>
    intro n p h
    rw [findFreeGo] at h
    by_cases hm : fsPathString (cand n) ∈ fs.map fsPathString
    · rw [if_pos hm] at h
      obtain ⟨m, hnm, hp, hfree, hmin⟩ := ih (n + 1) p h
      refine ⟨m, by omega, hp, hfree, ?_⟩
      intro j hj hjm
      by_cases hjn : j = n
      · rw [hjn]
        exact hm
      · exact hmin j (by omega) hjm
    · rw [if_neg hm] at h
      have hp : p = cand n := (Option.some.injEq .. ▸ h).symm
      exact ⟨n, Nat.le_refl n, hp, hm,
        fun j hj hjn => (Nat.lt_irrefl j (Nat.lt_of_lt_of_le hjn hj)).elim⟩

theorem findFreeGo_isSome (fs : List FsPath) (cand : Nat → FsPath)
    (hinj : Function.Injective (fun n => fsPathString (cand n))) :
    ∀ fuel n (seen : List String), seen ⊆ fs.map fsPathString → seen.Nodup →
      (∀ s ∈ seen, ∀ m, n ≤ m → fsPathString (cand m) ≠ s) →
      fs.length < seen.length + fuel →
      (findFreeGo fs cand fuel n).isSome := by
  intro fuel
  induction fuel with
  | zero =>
    intro n seen hsub hnd _ hlen
    exfalso
    have hle : seen.length ≤ (fs.map fsPathString).length :=
      (List.subperm_of_subset hnd hsub).length_le
    rw [List.length_map] at hle
    omega
  | succ f ih =>
    intro n seen hsub hnd hfresh hlen
    rw [findFreeGo]
    by_cases hm : fsPathString (cand n) ∈ fs.map fsPathString
    · rw [if_pos hm]
      apply ih (n + 1) (fsPathString (cand n) :: seen)
      · intro x hx
        rcases List.mem_cons.mp hx with rfl | hx'
        · exact hm
        · exact hsub hx'
      · exact List.nodup_cons.mpr
          ⟨fun hin => hfresh _ hin n (Nat.le_refl n) rfl, hnd⟩
      · intro s hs m hnm
        rcases List.mem_cons.mp hs with rfl | hs'
        · intro he
          have : m = n := hinj he
          omega
        · exact hfresh s hs' m (by omega)
      · simp only [List.length_cons]
        omega
    · rw [if_neg hm]
      rfl

/-- The filename chosen on a cache miss is the first free one: its
rendered path does not exist on disk, while every candidate before it
(the plain derived name and the smaller numeric suffixes) does. -/
theorem findFree_spec (fs : List FsPath) (cand : Nat → FsPath)
    (hinj : Function.Injective (fun n => fsPathString (cand n))) :
    ∃ m, findFree fs cand = cand m ∧
      fsPathString (cand m) ∉ fs.map fsPathString ∧
      ∀ j, j < m → fsPathString (cand j) ∈ fs.map fsPathString := by
  unfold findFree
  have hs := findFreeGo_isSome fs cand hinj (fs.length + 1) 0 []
    (by intro x hx; cases hx) List.nodup_nil (by intro s hs; cases hs)
    (by simp)
  cases hg : findFreeGo fs cand (fs.length + 1) 0 with
  | none => rw [hg] at hs; cases hs
  | some p =>
    obtain ⟨m, -, hp, hfree, hmin⟩ := findFreeGo_spec fs cand _ 0 p hg
    exact ⟨m, by simp [hp], hfree, fun j hj => hmin j (by omega) hj⟩

/-- A fortiori the chosen filename is not on disk, rendered or not. -/
theorem findFree_not_mem (fs : List FsPath) (cand : Nat → FsPath)
    (hinj : Function.Injective (fun n => fsPathString (cand n))) :
    findFree fs cand ∉ fs ∧
      fsPathString (findFree fs cand) ∉ fs.map fsPathString := by
  obtain ⟨m, heq, hfree, -⟩ := findFree_spec fs cand hinj
  rw [heq]
  exact ⟨fun hmem => hfree (List.mem_map_of_mem fsPathString hmem), hfree⟩

/-- A cache hit returns the stored path, no warning, and the state
untouched (no transfer: assetCalls is unchanged). -/
theorem ensure_download_cached (net : AssetNet) (extOf : String → String)
    (st : ScrState) (slug url alt : String) (idx : Nat) (p : FsPath)
    (h : dictGet ((dictGet st.cache slug).getD []) url = some p) :
    ensure_download net extOf st slug url alt idx = (some p, none, st) := by
  unfold ensure_download
  simp only [h]

/-- On a cache miss, a call that returns a path was an ok download: the
path is the collision-free candidate (not on disk beforehand), there is no
warning, the file is appended to the disk and the cache entry is added. -/
theorem ensure_download_miss_some (net : AssetNet) (extOf : String → String)
    (st : ScrState) (slug url alt : String) (idx : Nat) (p : FsPath)
    (w : Option String) (st1 : ScrState)
    (hmiss : dictGet ((dictGet st.cache slug).getD []) url = none)
    (h : ensure_download net extOf st slug url alt idx = (some p, w, st1)) :
    p ∉ st.fs ∧ w = none ∧ st1.fs = st.fs ++ [p] ∧
      dictGet ((dictGet st1.cache slug).getD []) url = some p := by
  unfold ensure_download at h
  simp only [hmiss] at h
  cases hn : net url with
  | ok =>
    simp only [hn, Prod.mk.injEq, Option.some.injEq] at h
    obtain ⟨rfl, rfl, rfl⟩ := h
    refine ⟨?_, rfl, rfl, ?_⟩
    · exact (findFree_not_mem st.fs _
        (assetCandidate_render_injective slug idx
          (sanitize_filename alt ("image-" ++ pad2 idx))
          (pyOrStr (extOf url) ".jpg"))).1
    · simp only [dictGet_dictSet, Option.getD_some]
  | failEarly msg =>
    simp only [hn, Prod.mk.injEq] at h
    exact absurd h.1 (by simp)
  | failMid msg =>
    simp only [hn, Prod.mk.injEq] at h
    exact absurd h.1 (by simp)

/-- On a cache miss, the stored path is the first free candidate of the
collision loop: the derived name with suffix k, whose rendered path was
not on disk while every smaller candidate's rendered path was; the file is
then appended to the disk. -/
theorem ensure_download_miss_shape (net : AssetNet) (extOf : String → String)
    (st : ScrState) (slug url alt : String) (idx : Nat) (p : FsPath)
    (w : Option String) (st1 : ScrState)
    (hmiss : dictGet ((dictGet st.cache slug).getD []) url = none)
    (h : ensure_download net extOf st slug url alt idx = (some p, w, st1)) :
    ∃ k, p = derivedCandidate extOf slug url alt idx k ∧
      fsPathString p ∉ st.fs.map fsPathString ∧
      (∀ j, j < k →
        fsPathString (derivedCandidate extOf slug url alt idx j) ∈
          st.fs.map fsPathString) ∧
      st1.fs = st.fs ++ [p] := by
  unfold ensure_download at h
  simp only [hmiss] at h
  cases hn : net url with
  | ok =>
    simp only [hn, Prod.mk.injEq, Option.some.injEq] at h
    obtain ⟨rfl, -, rfl⟩ := h
    obtain ⟨m, heq, hfree, hmin⟩ := findFree_spec st.fs
      (fun n => derivedCandidate extOf slug url alt idx n)
      (assetCandidate_render_injective slug idx
        (sanitize_filename alt ("image-" ++ pad2 idx))
        (pyOrStr (extOf url) ".jpg"))
    refine ⟨m, heq, ?_, hmin, rfl⟩
    rw [show (findFree st.fs fun n => FsPath.asset slug
        (assetCandidate idx (sanitize_filename alt ("image-" ++ pad2 idx))
          (pyOrStr (extOf url) ".jpg") n)) =
        derivedCandidate extOf slug url alt idx m from heq]
    exact hfree
  | failEarly msg =>
    simp only [hn, Prod.mk.injEq] at h
    exact absurd h.1 (by simp)
  | failMid msg =>
    simp only [hn, Prod.mk.injEq] at h
    exact absurd h.1 (by simp)

/-- C1: within one run, a given (slug, URL) pair is transferred at most
once.  After any call that produced a path for (slug, url), a repeated
call with the same slug and url — whatever alt text and index it passes —
returns the previously stored path with no warning and the state
unchanged, so no network transfer happens (assetCalls stays put). -/
theorem ensure_download_at_most_once (net : AssetNet) (extOf : String → String)
    (st : ScrState) (slug url alt : String) (idx : Nat) (alt2 : String)
    (idx2 : Nat) (p : FsPath) (w : Option String) (st1 : ScrState)
    (h : ensure_download net extOf st slug url alt idx = (some p, w, st1)) :
    ensure_download net extOf st1 slug url alt2 idx2 = (some p, none, st1) := by
  cases hm : dictGet ((dictGet st.cache slug).getD []) url with
  | some q =>
    rw [ensure_download_cached net extOf st slug url alt idx q hm] at h
    simp only [Prod.mk.injEq, Option.some.injEq] at h
    obtain ⟨rfl, -, rfl⟩ := h
    exact ensure_download_cached net extOf st slug url alt2 idx2 q hm
  | none =>
    obtain ⟨-, -, -, hcached⟩ :=
      ensure_download_miss_some net extOf st slug url alt idx p w st1 hm h
    exact ensure_download_cached net extOf st1 slug url alt2 idx2 p hcached

/-- Witness for C1: after a first successful download of (s, u), a second
call for (s, u) returns the same path, no warning and the same state. -/
theorem ensure_download_at_most_once_witness :
    ensure_download (fun _ => AssetOutcome.ok) (fun _ => "")
        ⟨[("s", [("u", FsPath.asset "s" ⟨1, "a", none, ".jpg"⟩)])],
         [FsPath.asset "s" ⟨1, "a", none, ".jpg"⟩], 1⟩ "s" "u" "b" 2 =
      (some (FsPath.asset "s" ⟨1, "a", none, ".jpg"⟩), none,
       ⟨[("s", [("u", FsPath.asset "s" ⟨1, "a", none, ".jpg"⟩)])],
        [FsPath.asset "s" ⟨1, "a", none, ".jpg"⟩], 1⟩) :=
  ensure_download_at_most_once (fun _ => AssetOutcome.ok) (fun _ => "")
    ⟨[], [], 0⟩ "s" "u" "a" 1 "b" 2
    (FsPath.asset "s" ⟨1, "a", none, ".jpg"⟩) none
    ⟨[("s", [("u", FsPath.asset "s" ⟨1, "a", none, ".jpg"⟩)])],
     [FsPath.asset "s" ⟨1, "a", none, ".jpg"⟩], 1⟩
    (by decide)

/-- C9: on a cache miss the filename chosen for writing is the first free
candidate of the collision loop: it is the derived name
NN_sanitizedAlt.ext with a numeric suffix k (absent for k = 0), its
rendered on-disk path does not exist at selection time (so no existing
file is overwritten) and every smaller suffix's rendered path did exist —
the suffix was appended and incremented until a non-existing name was
found; moreover any later storing call, in particular a second image
mapping to the same sanitized name, receives a path with a different
rendered name, because the first file now exists on disk. -/
theorem ensure_download_no_overwrite (net : AssetNet) (extOf : String → String)
    (st : ScrState) (slug url alt : String) (idx : Nat) (p : FsPath)
    (w : Option String) (st1 : ScrState)
    (hmiss : dictGet ((dictGet st.cache slug).getD []) url = none)
    (h : ensure_download net extOf st slug url alt idx = (some p, w, st1)) :
    (∃ k, p = derivedCandidate extOf slug url alt idx k ∧
        fsPathString p ∉ st.fs.map fsPathString ∧ p ∉ st.fs ∧
        ∀ j, j < k →
          fsPathString (derivedCandidate extOf slug url alt idx j) ∈
            st.fs.map fsPathString) ∧
    (∀ slug2 url2 alt2 idx2 p2 w2 st2,
      dictGet ((dictGet st1.cache slug2).getD []) url2 = none →
      ensure_download net extOf st1 slug2 url2 alt2 idx2 = (some p2, w2, st2) →
      fsPathString p2 ≠ fsPathString p ∧ p2 ≠ p) := by
  obtain ⟨k, hp, hfree, hmin, hfs⟩ :=
    ensure_download_miss_shape net extOf st slug url alt idx p w st1 hmiss h
  refine ⟨⟨k, hp, hfree,
      fun hmem => hfree (List.mem_map_of_mem fsPathString hmem), hmin⟩, ?_⟩
  intro slug2 url2 alt2 idx2 p2 w2 st2 hmiss2 h2
  obtain ⟨k2, -, hfree2, -, -⟩ :=
    ensure_download_miss_shape net extOf st1 slug2 url2 alt2 idx2 p2 w2 st2
      hmiss2 h2
  have hpin : fsPathString p ∈ st1.fs.map fsPathString := by
    rw [hfs]
    exact List.mem_map_of_mem fsPathString
      (List.mem_append_right _ (List.mem_singleton.mpr rfl))
  have hne : fsPathString p2 ≠ fsPathString p := by
    intro he
    apply hfree2
    rw [he]
    exact hpin
  exact ⟨hne, fun he => hne (congrArg fsPathString he)⟩

/-- Witness for C9: the derived name 01_a.jpg already exists on disk from
a prior run, so the first call stores 01_a_1.jpg (suffix 1, with 01_a.jpg
taken); a second image with the same alt text then receives the distinct
name 01_a_2.jpg. -/
theorem ensure_download_no_overwrite_witness :
    (∃ k, FsPath.asset "s" ⟨1, "a", some 1, ".jpg"⟩ =
        derivedCandidate (fun _ => "") "s" "u" "a" 1 k ∧
        fsPathString (FsPath.asset "s" ⟨1, "a", some 1, ".jpg"⟩) ∉
          [FsPath.asset "s" ⟨1, "a", none, ".jpg"⟩].map fsPathString ∧
        FsPath.asset "s" ⟨1, "a", some 1, ".jpg"⟩ ∉
          [FsPath.asset "s" ⟨1, "a", none, ".jpg"⟩] ∧
        ∀ j, j < k →
          fsPathString (derivedCandidate (fun _ => "") "s" "u" "a" 1 j) ∈
            [FsPath.asset "s" ⟨1, "a", none, ".jpg"⟩].map fsPathString) ∧
    (fsPathString (FsPath.asset "s" ⟨1, "a", some 2, ".jpg"⟩) ≠
        fsPathString (FsPath.asset "s" ⟨1, "a", some 1, ".jpg"⟩) ∧
      FsPath.asset "s" ⟨1, "a", some 2, ".jpg"⟩ ≠
        FsPath.asset "s" ⟨1, "a", some 1, ".jpg"⟩) :=
  have T := ensure_download_no_overwrite (fun _ => AssetOutcome.ok)
    (fun _ => "") ⟨[], [FsPath.asset "s" ⟨1, "a", none, ".jpg"⟩], 0⟩
    "s" "u" "a" 1 (FsPath.asset "s" ⟨1, "a", some 1, ".jpg"⟩) none
    ⟨[("s", [("u", FsPath.asset "s" ⟨1, "a", some 1, ".jpg"⟩)])],
     [FsPath.asset "s" ⟨1, "a", none, ".jpg"⟩,
      FsPath.asset "s" ⟨1, "a", some 1, ".jpg"⟩], 1⟩
    (by decide) (by decide)
  ⟨T.1, T.2 "s" "u2" "a" 1 (FsPath.asset "s" ⟨1, "a", some 2, ".jpg"⟩) none
    ⟨[("s", [("u2", FsPath.asset "s" ⟨1, "a", some 2, ".jpg"⟩),
             ("u", FsPath.asset "s" ⟨1, "a", some 1, ".jpg"⟩)])],
     [FsPath.asset "s" ⟨1, "a", none, ".jpg"⟩,
      FsPath.asset "s" ⟨1, "a", some 1, ".jpg"⟩,
      FsPath.asset "s" ⟨1, "a", some 2, ".jpg"⟩], 2⟩
    (by decide) (by decide)⟩

/-- C10: a failed download is not cached.  On a cache miss whose transfer
fails, ensure_download returns an absent path with a warning, leaves the
cache unchanged, counts one transfer attempt — and a repeated call for the
same (slug, url) misses again and performs a fresh transfer attempt
(assetCalls grows again) instead of reusing a failed entry. -/
theorem ensure_download_failure_not_cached (net : AssetNet)
    (extOf : String → String) (st : ScrState) (slug url alt : String)
    (idx : Nat) (msg : String)
    (hmiss : dictGet ((dictGet st.cache slug).getD []) url = none)
    (hfail : net url = .failEarly msg ∨ net url = .failMid msg) :
    ∃ st1, ensure_download net extOf st slug url alt idx =
        (none, some ("图片下载失败：" ++ url ++ " -> " ++ msg), st1) ∧
      st1.cache = st.cache ∧ st1.assetCalls = st.assetCalls + 1 ∧
      (∀ alt2 idx2,
        ((ensure_download net extOf st1 slug url alt2 idx2).2.2).assetCalls =
          st.assetCalls + 2) := by
  have hstep : ∀ st' : ScrState,
      dictGet ((dictGet st'.cache slug).getD []) url = none →
      ∃ st2, ensure_download net extOf st' slug url alt idx =
          (none, some ("图片下载失败：" ++ url ++ " -> " ++ msg), st2) ∧
        st2.cache = st'.cache ∧ st2.assetCalls = st'.assetCalls + 1 := by
    intro st' hmiss'
    unfold ensure_download
    simp only [hmiss']
    rcases hfail with hf | hf
    · rw [hf]
      exact ⟨_, rfl, rfl, rfl⟩
    · rw [hf]
      exact ⟨_, rfl, rfl, rfl⟩
  obtain ⟨st1, heq, hcache, hcalls⟩ := hstep st hmiss
  refine ⟨st1, heq, hcache, hcalls, ?_⟩
  intro alt2 idx2
  have hmiss1 : dictGet ((dictGet st1.cache slug).getD []) url = none := by
    rw [hcache]
    exact hmiss
  unfold ensure_download
  simp only [hmiss1]
  rcases hfail with hf | hf
  · rw [hf]
    simp [hcalls]
  · rw [hf]
    simp [hcalls]

/-- Witness for C10 on an always-failing transport and an empty state. -/
theorem ensure_download_failure_not_cached_witness :
    ∃ st1, ensure_download (fun _ => AssetOutcome.failEarly "boom")
        (fun _ => "") ⟨[], [], 0⟩ "s" "u" "a" 1 =
        (none, some ("图片下载失败：" ++ "u" ++ " -> " ++ "boom"), st1) ∧
      st1.cache = (⟨[], [], 0⟩ : ScrState).cache ∧ st1.assetCalls = 0 + 1 ∧
      (∀ alt2 idx2,
        ((ensure_download (fun _ => AssetOutcome.failEarly "boom") (fun _ => "")
            st1 "s" "u" alt2 idx2).2.2).assetCalls = 0 + 2) :=
  ensure_download_failure_not_cached (fun _ => AssetOutcome.failEarly "boom")
    (fun _ => "") ⟨[], [], 0⟩ "s" "u" "a" 1 "boom" (by decide) (Or.inl rfl)

/-! ### Variant resolution, image collection and the orchestrator -/

/-- The DownloadResult dataclass. -/
structure DownloadResult where
  meta : ArticleMeta
  markdown_path : FsPath
  assets : List FsPath
  warnings : List String
deriving DecidableEq, Repr

/-- extract_language_variants: scan link elements carrying rel=alternate
and an hreflang attribute in document order, strip both attributes, skip
empty ones, and map the lower-cased language tag to the href resolved
against the base URL (a later link overwrites an earlier one). -/
def extract_language_variants (urljoin : String → String → String)
    (tree : Node) (baseUrl : String) : List (String × String) :=
  (preorder tree).foldl
    (fun variants n =>
      match n with
      | .elem tag attrs _ =>
        if tag = "link" ∧ dictGet attrs "rel" = some "alternate" ∧
            (dictGet attrs "hreflang").isSome then
          let lang := pyStrip ((dictGet attrs "hreflang").getD "")
          let href := pyStrip ((dictGet attrs "href").getD "")
          if lang = "" ∨ href = "" then variants
          else dictSet variants (pyLower lang) (urljoin baseUrl href)
        else variants
      | .text _ => variants)
    []

mutual
/-- collect_images: document-order (absolute url, stripped alt) pairs of
the img elements below an article or main element (the union xpath
//article//img | //main//img); the flag records whether an ancestor is
such a container.  src falls from src to data-src to nothing. -/
def collectImgs (urljoin : String → String → String) (baseUrl : String)
    (flag : Bool) : Node → List (String × String)
  | .text _ => []
  | .elem tag attrs cs =>
    let here :=
      if tag = "img" ∧ flag then
        let src :=
          pyOrOptStr (pyOrOpt (dictGet attrs "src") (dictGet attrs "data-src")) ""
        if src = "" then []
        else [(urljoin baseUrl src, pyStrip (pyOrOptStr (dictGet attrs "alt") ""))]
      else []
    here ++ collectImgsL urljoin baseUrl
      (flag || tag == "article" || tag == "main") cs

def collectImgsL (urljoin : String → String → String) (baseUrl : String)
    (flag : Bool) : List Node → List (String × String)
  | [] => []
  | n :: ns =>
    collectImgs urljoin baseUrl flag n ++ collectImgsL urljoin baseUrl flag ns
end

def collect_images (urljoin : String → String → String) (tree : Node)
    (baseUrl : String) : List (String × String) :=
  collectImgs urljoin baseUrl false tree

/-- The external collaborators of the orchestrator, bundled: page and
asset transports, lxml parsing, json parsing, the optional trafilatura
extractor and markdownify, urljoin, the URL-path helpers (extOf for
Path(path).suffix, basename for Path(path).name) and os.path.relpath
rendered posix-style against the slug's markdown directory. -/
structure World where
  net : String → FetchNet
  assetNet : AssetNet
  parse : String → Node
  jsonParse : String → LdScript
  haveTraf : Bool
  traf : String → String → Option String
  mdify : String → String
  urljoin : String → String → String
  extOf : String → String
  basename : String → String
  rel : String → FsPath → String

/-- derive_slug: sanitize the final path segment of the article URL. -/
def derive_slug (basename : String → String) (sourceUrl : String) : String :=
  sanitize_filename (basename sourceUrl)

/-- One entry of the language plan: the English entry reuses the already
fetched page, the Chinese entry still has to fetch. -/
inductive PlanEntry where
  | cachedE (lang url : String) (tree : Node) (html : String)
      (warnings : List String)
  | fresh (lang url : String)

def PlanEntry.langOf : PlanEntry → String
  | .cachedE l _ _ _ _ => l
  | .fresh l _ => l

def PlanEntry.urlOf : PlanEntry → String
  | .cachedE _ u _ _ _ => u
  | .fresh _ u => u

/-- The image loop of scrape_article: enumerate the images from 1, call
ensure_download, collect warnings, downloaded assets and the
url-to-relative-path replacement mapping. -/
def downloadImages (W : World) (slug : String) :
    List (String × String) → Nat → ScrState → List String → List FsPath →
      List (String × String) →
      ScrState × List String × List FsPath × List (String × String)
  | [], _, st, ws, assetsAcc, rm => (st, ws, assetsAcc, rm)
  | (u, alt) :: rest, idx, st, ws, assetsAcc, rm =>
    match ensure_download W.assetNet W.extOf st slug u alt idx with
    | (pOpt, wOpt, st1) =>
      match wOpt with
      | some w =>
        downloadImages W slug rest (idx + 1) st1 (ws ++ [w]) assetsAcc rm
      | none =>
        match pOpt with
        | none => downloadImages W slug rest (idx + 1) st1 ws assetsAcc rm
        | some p =>
          downloadImages W slug rest (idx + 1) st1 ws (assetsAcc ++ [p])
            (dictSet rm u (W.rel slug p))

/-- The shared tail of one language's processing: extract the metadata,
convert to markdown (a NameError propagates as the error value), download
the images, rewrite the references and write the document. -/
def processBody (W : World) (slug : String) (st : ScrState)
    (lang url : String) (tree : Node) (htmlText : String)
    (warnings : List String) : Except Unit (DownloadResult × ScrState) :=
  let meta := extract_article_meta W.jsonParse tree lang url
  match html_to_markdown W.haveTraf W.traf W.mdify W.parse htmlText url with
  | .error e => .error e
  | .ok markdown =>
    let images := collect_images W.urljoin tree url
    match downloadImages W slug images 1 st warnings [] [] with
    | (st1, ws1, assetsAcc, rm) =>
      let _ := rewrite_markdown_images (fun u2 => dictGet rm u2) markdown
      let mdPath := FsPath.mdfile slug lang
      let st2 : ScrState :=
        { st1 with fs := if mdPath ∈ st1.fs then st1.fs else st1.fs ++ [mdPath] }
      .ok ({ meta := meta, markdown_path := mdPath, assets := assetsAcc,
             warnings := ws1 }, st2)

/-- Process one entry of the language plan: fetch when not cached; a fetch
failure yields the flagged failure record (placeholder title, the expected
markdown path, no assets, the accumulated warnings) and processing goes
on. -/
def processLang (W : World) (slug : String) (st : ScrState) :
    PlanEntry → Except Unit (DownloadResult × ScrState)
  | .cachedE lang url tree htmlText ws =>
    processBody W slug st lang url tree htmlText ws
  | .fresh lang url =>
    let fr := fetch_html (W.net url) url lang 3
    match fr.1 with
    | none =>
      .ok ({ meta := { title := "抓取失败", author := "", published := "",
                       source_url := url, language := lang },
             markdown_path := .mdfile slug lang, assets := [],
             warnings := fr.2.1 ++ ["多语言页面不可用：" ++ lang ++ " -> " ++ url] },
           st)
    | some htmlText =>
      processBody W slug st lang url (W.parse htmlText) htmlText fr.2.1

/-- The per-language loop of scrape_article. -/
def processPlan (W : World) (slug : String) (st : ScrState) :
    List PlanEntry → Except Unit (List DownloadResult × ScrState)
  | [] => .ok ([], st)
  | e :: rest =>
    match processLang W slug st e with
    | .error err => .error err
    | .ok (r, st1) =>
      match processPlan W slug st1 rest with
      | .error err => .error err
      | .ok (rs, st2) => .ok (r :: rs, st2)

/-- StoryScraper.scrape_article: fetch the English base page (an
exhausted fetch skips the whole article), resolve the language variants,
append the zh-Hans entry when one of the zh keys holds a truthy URL, and
process the plan in order. -/
def scrape_article (W : World) (st : ScrState) (url : String) :
    Except Unit (List DownloadResult × ScrState) :=
  let slug := derive_slug W.basename url
  let fr := fetch_html (W.net url) url "en" 3
  match fr.1 with
  | none => .ok ([], st)
  | some enHtml =>
    let enTree := W.parse enHtml
    let variants := extract_language_variants W.urljoin enTree url
    let zhUrl := pyOrOpt (dictGet variants "zh")
        (pyOrOpt (dictGet variants "zh-cn") (dictGet variants "zh-hans"))
    let plan := [PlanEntry.cachedE "en" url enTree enHtml fr.2.1] ++
      (if truthyOpt zhUrl then [PlanEntry.fresh "zh-Hans" (zhUrl.getD "")]
       else [])
    processPlan W slug st plan

/-- The article loop of StoryScraper.run (a crash propagates: nothing in
the loop catches it). -/
def runArticles (W : World) (st : ScrState) :
    List String → Except Unit (List DownloadResult × ScrState)
  | [] => .ok ([], st)
  | u :: rest =>
    match scrape_article W st u with
    | .error e => .error e
    | .ok (rs, st1) =>
      match runArticles W st1 rest with
      | .error e => .error e
      | .ok (rs2, st2) => .ok (rs ++ rs2, st2)

/-- StoryScraper.run: the limit truncates the article list before the
loop; results accumulate in order. -/
def run (W : World) (st : ScrState) (urls : List String)
    (limit : Option Nat) : Except Unit (List DownloadResult × ScrState) :=
  runArticles W st (match limit with | none => urls | some k => urls.take k)

/-- The prioritized lookup the spec describes: the first present of the
three zh keys. -/
def firstPresent (a b c : Option String) : Option String :=
  match a with
  | some v => some v
  | none =>
    match b with
    | some v => some v
    | none => c

/-- When every present value is non-empty (true of urljoin output), the
falsy-chaining or of the source coincides with first-present lookup. -/
theorem pyOrOpt_firstPresent (a b c : Option String)
    (ha : ∀ v, a = some v → v ≠ "") (hb : ∀ v, b = some v → v ≠ "") :
    pyOrOpt a (pyOrOpt b c) = firstPresent a b c := by
  cases a with
  | some v =>
    have := ha v rfl
    simp [pyOrOpt, firstPresent, this]
  | none =>
    cases b with
    | some v =>
      have := hb v rfl
      simp [pyOrOpt, firstPresent, this]
    | none => simp [pyOrOpt, firstPresent]

theorem dictGet_mem {α : Type} (l : List (String × α)) (k : String) (v : α)
    (h : dictGet l k = some v) : (k, v) ∈ l := by
  induction l with
  | nil => simp [dictGet] at h
  | cons p t ih =>
    obtain ⟨k', v'⟩ := p
    by_cases hk : k' = k
    · subst hk
      rw [dictGet, if_pos rfl] at h
      rw [show v = v' from (Option.some.injEq .. ▸ h).symm]
      exact List.mem_cons_self _ _
    · rw [dictGet, if_neg hk] at h
      exact List.mem_cons_of_mem _ (ih h)

theorem html_to_markdown_noTraf (traf : String → String → Option String)
    (mdify : String → String) (parse : String → Node) (h u : String) :
    html_to_markdown false traf mdify parse h u =
      .ok (mdify (fallback_fragment (parse h))) := rfl

theorem extract_article_meta_language (jsonParse : String → LdScript)
    (tree : Node) (lang url : String) :
    (extract_article_meta jsonParse tree lang url).language = lang ∧
    (extract_article_meta jsonParse tree lang url).source_url = url :=
  ⟨rfl, rfl⟩

/-- When trafilatura is absent, the success path of one language always
produces a record carrying that language and URL. -/
theorem processBody_ok (W : World) (slug : String) (st : ScrState)
    (lang url : String) (tree : Node) (htmlText : String) (ws : List String)
    (htraf : W.haveTraf = false) :
    ∃ r st1, processBody W slug st lang url tree htmlText ws = .ok (r, st1) ∧
      r.meta.language = lang ∧ r.meta.source_url = url := by
  unfold processBody
  rw [htraf, html_to_markdown_noTraf]
  exact ⟨_, _, rfl, rfl, rfl⟩

theorem processLang_ok (W : World) (slug : String) (st : ScrState)
    (e : PlanEntry) (htraf : W.haveTraf = false) :
    ∃ r st1, processLang W slug st e = .ok (r, st1) ∧
      r.meta.language = e.langOf ∧ r.meta.source_url = e.urlOf := by
  cases e with
  | cachedE lang url tree htmlText ws =>
    exact processBody_ok W slug st lang url tree htmlText ws htraf
  | fresh lang url =>
    cases hf : (fetch_html (W.net url) url lang 3).1 with
    | none =>
      unfold processLang
      simp only [hf]
      exact ⟨_, _, rfl, rfl, rfl⟩
    | some htmlText =>
      obtain ⟨r, st1, he, h1, h2⟩ := processBody_ok W slug st lang url
        (W.parse htmlText) htmlText (fetch_html (W.net url) url lang 3).2.1 htraf
      refine ⟨r, st1, ?_, h1, h2⟩
      unfold processLang
      simp only [hf, he]

theorem processPlan_ok (W : World) (slug : String) (htraf : W.haveTraf = false) :
    ∀ (plan : List PlanEntry) (st : ScrState),
      ∃ rs st1, processPlan W slug st plan = .ok (rs, st1) ∧
        rs.map (fun r => r.meta.language) = plan.map PlanEntry.langOf ∧
        rs.map (fun r => r.meta.source_url) = plan.map PlanEntry.urlOf := by
  intro plan
  induction plan with
  | nil => exact fun st => ⟨[], st, rfl, rfl, rfl⟩
  | cons e rest ih =>
    intro st
    obtain ⟨r, st1, he, hlang, hurl⟩ := processLang_ok W slug st e htraf
    obtain ⟨rs, st2, hrest, hlangs, hurls⟩ := ih st1
    refine ⟨r :: rs, st2, ?_, ?_, ?_⟩
    · unfold processPlan
      simp only [he, hrest]
    · simp [hlang, hlangs]
    · simp [hurl, hurls]

/-- C5: an article whose base English fetch exhausts its retries produces
no result record at all and leaves the run state untouched — no variant of
the article is processed. -/
theorem scrape_article_base_failure (W : World) (st : ScrState) (url : String)
    (h : (fetch_html (W.net url) url "en" 3).1 = none) :
    scrape_article W st url = .ok ([], st) := by
  unfold scrape_article
  simp only [h]

/-- C4: with the base page fetched, the language plan is English first and
mandatory; the Chinese variant comes from the prioritized key list zh,
zh-cn, zh-hans, first present wins; no key present gives exactly the
English record, a present key gives exactly the records
[English, Chinese], the Chinese one aimed at the first present URL. -/
theorem scrape_article_language_plan (W : World) (st : ScrState)
    (url enHtml : String) (vars : List (String × String))
    (hvars : vars = extract_language_variants W.urljoin (W.parse enHtml) url)
    (hen : (fetch_html (W.net url) url "en" 3).1 = some enHtml)
    (htraf : W.haveTraf = false)
    (hvals : ∀ p ∈ vars, p.2 ≠ "") :
    pyOrOpt (dictGet vars "zh")
        (pyOrOpt (dictGet vars "zh-cn") (dictGet vars "zh-hans")) =
      firstPresent (dictGet vars "zh") (dictGet vars "zh-cn")
        (dictGet vars "zh-hans") ∧
    (firstPresent (dictGet vars "zh") (dictGet vars "zh-cn")
        (dictGet vars "zh-hans") = none →
      ∃ res st1, scrape_article W st url = .ok (res, st1) ∧
        res.map (fun r => r.meta.language) = ["en"]) ∧
    (∀ zhU, firstPresent (dictGet vars "zh") (dictGet vars "zh-cn")
        (dictGet vars "zh-hans") = some zhU →
      ∃ res st1, scrape_article W st url = .ok (res, st1) ∧
        res.map (fun r => r.meta.language) = ["en", "zh-Hans"] ∧
        res.map (fun r => r.meta.source_url) = [url, zhU]) := by
  have hgetne : ∀ (k : String) v, dictGet vars k = some v → v ≠ "" :=
    fun k v h => hvals (k, v) (dictGet_mem vars k v h)
  have hchain : pyOrOpt (dictGet vars "zh")
      (pyOrOpt (dictGet vars "zh-cn") (dictGet vars "zh-hans")) =
      firstPresent (dictGet vars "zh") (dictGet vars "zh-cn")
        (dictGet vars "zh-hans") :=
    pyOrOpt_firstPresent _ _ _ (hgetne "zh") (hgetne "zh-cn")
  refine ⟨hchain, ?_, ?_⟩
  · intro hnone
    unfold scrape_article
    simp only [hen, ← hvars, hchain, hnone, truthyOpt, List.append_nil]
    obtain ⟨rs, st1, hp, hlangs, -⟩ :=
      processPlan_ok W (derive_slug W.basename url) htraf
        [PlanEntry.cachedE "en" url (W.parse enHtml) enHtml
          (fetch_html (W.net url) url "en" 3).2.1] st
    exact ⟨rs, st1, hp, by simpa [PlanEntry.langOf] using hlangs⟩
  · intro zhU hsome
    have hne : zhU ≠ "" := by
      unfold firstPresent at hsome
      cases h1 : dictGet vars "zh" with
      | some v =>
        rw [h1] at hsome
        simp at hsome
        exact hsome ▸ hgetne "zh" v h1
      | none =>
        rw [h1] at hsome
        cases h2 : dictGet vars "zh-cn" with
        | some v =>
          rw [h2] at hsome
          simp at hsome
          exact hsome ▸ hgetne "zh-cn" v h2
        | none =>
          rw [h2] at hsome
          exact hgetne "zh-hans" zhU hsome
    unfold scrape_article
    simp only [hen, ← hvars, hchain, hsome, truthyOpt, hne, ne_eq,
      not_false_eq_true, if_true, Option.getD_some]
    obtain ⟨rs, st1, hp, hlangs, hurls⟩ :=
      processPlan_ok W (derive_slug W.basename url) htraf
        ([PlanEntry.cachedE "en" url (W.parse enHtml) enHtml
          (fetch_html (W.net url) url "en" 3).2.1] ++
         [PlanEntry.fresh "zh-Hans" zhU]) st
    exact ⟨rs, st1, by simpa using hp,
      by simpa [PlanEntry.langOf] using hlangs,
      by simpa [PlanEntry.urlOf] using hurls⟩

/-- C6: a discovered Chinese variant whose fetch exhausts its retries
still yields a result record: flagged with the placeholder title, carrying
the expected markdown path, an empty asset list and the accumulated fetch
warnings plus the unavailability note — and the run goes on with the
following articles instead of aborting. -/
theorem scrape_article_variant_failure (W : World) (st : ScrState)
    (url enHtml zhU : String)
    (hen : (fetch_html (W.net url) url "en" 3).1 = some enHtml)
    (htraf : W.haveTraf = false)
    (hzh : pyOrOpt
        (dictGet (extract_language_variants W.urljoin (W.parse enHtml) url) "zh")
        (pyOrOpt
          (dictGet (extract_language_variants W.urljoin (W.parse enHtml) url)
            "zh-cn")
          (dictGet (extract_language_variants W.urljoin (W.parse enHtml) url)
            "zh-hans")) = some zhU)
    (hne : zhU ≠ "")
    (hfail : (fetch_html (W.net zhU) zhU "zh-Hans" 3).1 = none) :
    ∃ enRec zhRec st1,
      scrape_article W st url = .ok ([enRec, zhRec], st1) ∧
      enRec.meta.language = "en" ∧
      zhRec = { meta := { title := "抓取失败", author := "", published := "",
                          source_url := zhU, language := "zh-Hans" },
                markdown_path := .mdfile (derive_slug W.basename url) "zh-Hans",
                assets := [],
                warnings := (fetch_html (W.net zhU) zhU "zh-Hans" 3).2.1 ++
                  ["多语言页面不可用：" ++ "zh-Hans" ++ " -> " ++ zhU] } ∧
      (∀ u2 rs2 st2, scrape_article W st1 u2 = .ok (rs2, st2) →
        run W st [url, u2] none = .ok ((enRec :: zhRec :: []) ++ rs2, st2)) := by
  obtain ⟨enRec, stE, hb, hlang, -⟩ :=
    processBody_ok W (derive_slug W.basename url) st "en" url (W.parse enHtml)
      enHtml (fetch_html (W.net url) url "en" 3).2.1 htraf
  have hscrape : scrape_article W st url =
      .ok ([enRec,
            { meta := { title := "抓取失败", author := "", published := "",
                        source_url := zhU, language := "zh-Hans" },
              markdown_path := .mdfile (derive_slug W.basename url) "zh-Hans",
              assets := [],
              warnings := (fetch_html (W.net zhU) zhU "zh-Hans" 3).2.1 ++
                ["多语言页面不可用：" ++ "zh-Hans" ++ " -> " ++ zhU] }], stE) := by
    unfold scrape_article
    simp only [hen, hzh, truthyOpt, hne, ne_eq, not_false_eq_true,
      decide_True, if_true, Option.getD_some, List.cons_append,
      List.nil_append, processPlan, processLang, hb, hfail]
  refine ⟨enRec, _, stE, hscrape, hlang, rfl, ?_⟩
  intro u2 rs2 st2 h2
  unfold run
  simp only [runArticles, hscrape, h2, List.append_nil, List.cons_append,
    List.nil_append]

/-- A sample document tree: one alternate link advertising the zh-Hans
variant. -/
def sampleTree : Node :=
  Node.elem "html" []
    [Node.elem "link"
      [("rel", "alternate"), ("hreflang", "zh-Hans"), ("href", "http://z")] []]

/-- A sample world: every page fetch succeeds, every document parses to
sampleTree, trafilatura is absent, the path helpers are fixed. -/
def sampleWorld : World :=
  { net := fun _ => fun _ _ => FetchResp.resp 200 "<html>"
    assetNet := fun _ => .ok
    parse := fun _ => sampleTree
    jsonParse := fun _ => .parseError
    haveTraf := false
    traf := fun _ _ => none
    mdify := fun s => s
    urljoin := fun _ href => href
    extOf := fun _ => ""
    basename := fun _ => "slug"
    rel := fun _ _ => "rel" }

/-- The sample world whose transport always fails. -/
def sampleWorldFail : World :=
  { sampleWorld with net := fun _ => fun _ _ => FetchResp.resp 500 "" }

/-- The sample world where only the zh variant URL is down. -/
def sampleWorldZhDown : World :=
  { sampleWorld with
    net := fun u =>
      if u = "http://z" then fun _ _ => FetchResp.exc "down"
      else fun _ _ => FetchResp.resp 200 "<html>" }

/-- Witness for C5 at the always-failing world. -/
theorem scrape_article_base_failure_witness :
    scrape_article sampleWorldFail ⟨[], [], 0⟩ "http://e" =
      .ok ([], ⟨[], [], 0⟩) :=
  scrape_article_base_failure sampleWorldFail ⟨[], [], 0⟩ "http://e" (by decide)

/-- Witness for C4: the sample page advertises zh-Hans, so exactly the two
records [English, Chinese] are produced, the Chinese one aimed at the
advertised URL. -/
theorem scrape_article_language_plan_witness :
    ∃ res st1,
      scrape_article sampleWorld ⟨[], [], 0⟩ "http://e" = .ok (res, st1) ∧
      res.map (fun r => r.meta.language) = ["en", "zh-Hans"] ∧
      res.map (fun r => r.meta.source_url) = ["http://e", "http://z"] :=
  (scrape_article_language_plan sampleWorld ⟨[], [], 0⟩ "http://e" "<html>"
    [("zh-hans", "http://z")] (by decide) (by decide) rfl
    (by decide)).2.2 "http://z" (by decide)

/-- Witness for C6: the zh variant is advertised but down; the failure
record is emitted after the English one and the run continues. -/
theorem scrape_article_variant_failure_witness :
    ∃ enRec zhRec st1,
      scrape_article sampleWorldZhDown ⟨[], [], 0⟩ "http://e" =
        .ok ([enRec, zhRec], st1) ∧
      enRec.meta.language = "en" ∧
      zhRec = { meta := { title := "抓取失败", author := "", published := "",
                          source_url := "http://z", language := "zh-Hans" },
                markdown_path := .mdfile
                  (derive_slug sampleWorldZhDown.basename "http://e") "zh-Hans",
                assets := [],
                warnings := (fetch_html (sampleWorldZhDown.net "http://z")
                    "http://z" "zh-Hans" 3).2.1 ++
                  ["多语言页面不可用：" ++ "zh-Hans" ++ " -> " ++ "http://z"] } ∧
      (∀ u2 rs2 st2,
        scrape_article sampleWorldZhDown st1 u2 = .ok (rs2, st2) →
        run sampleWorldZhDown ⟨[], [], 0⟩ ["http://e", u2] none =
          .ok ((enRec :: zhRec :: []) ++ rs2, st2)) :=
  scrape_article_variant_failure sampleWorldZhDown ⟨[], [], 0⟩ "http://e"
    "<html>" "http://z" (by decide) rfl (by decide) (by decide) (by decide)

end Scraper
